import Mathlib

/-!
# YumeBox `core/src/cpp/version.h`

The header consists of preprocessing directives only:

    #ifndef VERSION_H_IN
    #define VERSION_H_IN
    #define GIT_VERSION Alpha-d33dbbe2
    #define make_Str(x) #x
    #define make_String(x) make_Str(x)
    #endif

What it computes is what the C preprocessor makes of it, so the development
has two layers.

* The text of the header, kept verbatim (`version_h`), is read by a model of
  translation phases 2 to 4 of C11: line splicing, comment removal, lexing
  into preprocessing tokens, directive handling (`define`, `undef`, `ifdef`,
  `ifndef`, `else`, `endif`) and replacement of object-like and function-like
  names with the `#` and `##` operators, argument pre-expansion and rescanning
  under hide sets (Prosser's algorithm, which the wording of C11 6.10.3 follows).
* The definitions `GIT_VERSION`, `make_Str` and `make_String` are the three
  entries that reading `version_h` produces (`version_h_defines`), next to the
  include guard `VERSION_H_IN`.

An environment (`Env`) is what replacement reads: the definitions in force and
the number of the current line, which is what the predefined `__LINE__`
stands for.  Directives change the definitions (`PPState`); replacement of a
text line does not.

Where the spelling of an argument between quotes is not a string literal, the
`#` operator has no result (`badStringize`): C11 6.10.3.2p2 leaves the
behaviour undefined there.  The literals accepted are those the lexer reads as
one token; escape sequences are not checked at this phase, and `stringValue`
reads the simple ones only.

Outside the model: `#if`/`#elif` expressions, `#include`, variadic parameter
lists, raw and prefixed string literals, predefined names other than
`__LINE__` (`__FILE__`, `__DATE__`, `__TIME__`, and the `__COUNTER__` of some
compilers, which does change from one use to the next).  None of them occurs
in the header.  Lines are numbered after splicing and comment removal, so a
comment or a spliced line that runs over several physical lines counts as
one; where a result below names a line number, the text read has neither.  A
text line is replaced on its own, so an invocation closes on the line it opens
on.  White space is kept as a flag on the token it precedes; the white space
of a name or parameter that is replaced by nothing is dropped, a point C11
leaves open.  Replacement is bounded by a fuel argument that every step
decrements; results are stated for every fuel above an explicit bound.
-/

namespace YumeBox

/-! ## Preprocessing tokens -/

/-- The spelling of an identifier. -/
abbrev Name := List Char

/-- A preprocessing token: its spelling, and whether white space precedes it. -/
structure PPToken where
  text : List Char
  ws : Bool
  deriving DecidableEq, Repr

/-- The double quote character. -/
def dquote : Char := Char.ofNat 34

/-- The single quote character. -/
def squote : Char := Char.ofNat 39

/-- The backslash character. -/
def backslash : Char := Char.ofNat 92

/-- The new-line character. -/
def newline : Char := Char.ofNat 10

/-- A decimal digit. -/
def isDigitChar (c : Char) : Bool := decide (48 ≤ c.toNat ∧ c.toNat ≤ 57)

/-- A letter of the basic source character set, or the underscore. -/
def isIdentStart (c : Char) : Bool :=
  decide ((65 ≤ c.toNat ∧ c.toNat ≤ 90) ∨ (97 ≤ c.toNat ∧ c.toNat ≤ 122) ∨ c.toNat = 95)

def isIdentChar (c : Char) : Bool := isIdentStart c || isDigitChar c

/-- White space inside a line: space, horizontal tab, vertical tab, form feed,
carriage return. -/
def isBlank (c : Char) : Bool :=
  decide (c.toNat = 32 ∨ c.toNat = 9 ∨ c.toNat = 11 ∨ c.toNat = 12 ∨ c.toNat = 13)

/-- An identifier: a letter or underscore, then letters, digits, underscores. -/
def isIdentifier : List Char → Bool
  | [] => false
  | c :: cs => isIdentStart c && cs.all isIdentChar

/-- A string literal or character constant: in C11 these are the only
preprocessing tokens whose spelling holds a quote character. -/
def isQuoted (s : List Char) : Bool := s.any fun c => c == dquote || c == squote

/-- The longest run of identifier characters in front, and what follows it. -/
def takeIdent : List Char → List Char × List Char
  | [] => ([], [])
  | c :: cs =>
    if isIdentChar c then ((c :: (takeIdent cs).1), (takeIdent cs).2) else ([], c :: cs)

def isExpLetter (c : Char) : Bool := c == 'e' || c == 'E' || c == 'p' || c == 'P'

def isSign (c : Char) : Bool := c == '+' || c == '-'

/-- The tail of a pp-number (C11 6.4.8): digits, letters, underscores, periods,
and a sign right after `e`, `E`, `p` or `P`. -/
def takeNumber : List Char → List Char × List Char
  | [] => ([], [])
  | [c] => if isIdentChar c || c == '.' then ([c], []) else ([], [c])
  | c :: s :: rest =>
    if isIdentChar c || c == '.' then
      if isExpLetter c && isSign s then
        ((c :: s :: (takeNumber rest).1), (takeNumber rest).2)
      else ((c :: (takeNumber (s :: rest)).1), (takeNumber (s :: rest)).2)
    else ([], c :: s :: rest)

/-- The rest of a string literal or character constant after its opening quote
`q`, up to and including the closing quote; a backslash takes the next
character with it.  `none` when the line ends first. -/
def takeQuoted (q : Char) : List Char → Option (List Char × List Char)
  | [] => none
  | c :: cs =>
    if c = q then some ([c], cs)
    else if c = backslash then
      match cs with
      | [] => none
      | e :: rest => (takeQuoted q rest).map fun r => (c :: e :: r.1, r.2)
    else (takeQuoted q cs).map fun r => (c :: r.1, r.2)

/-- The punctuators of C11 6.4.6, longest first. -/
def punctuators : List (List Char) :=
  ["%:%:", "...", "<<=", ">>=",
   "->", "++", "--", "<<", ">>", "<=", ">=", "==", "!=", "&&", "||",
   "*=", "/=", "%=", "+=", "-=", "&=", "^=", "|=", "##", "<:", ":>", "<%", "%>", "%:",
   "[", "]", "(", ")", "\x7b", "\x7d", ".", "&", "*", "+", "-", "~", "!", "/", "%",
   "<", ">", "^", "|", "?", ":", ";", "=", ",", "#"].map String.data

/-- Drop `p` from the front of `s` when it is there. -/
def dropFront : List Char → List Char → Option (List Char)
  | [], s => some s
  | _ :: _, [] => none
  | p :: ps, c :: cs => if p = c then dropFront ps cs else none

/-- The first entry of the table that starts the input, with the remainder. -/
def takePunct : List (List Char) → List Char → Option (List Char × List Char)
  | [], _ => none
  | p :: ps, s =>
    match dropFront p s with
    | some rest => some (p, rest)
    | none => takePunct ps s

/-- An encoding prefix of a string literal or character constant. -/
def isEncodingPrefix (s : List Char) : Bool :=
  s == "L".data || s == "u".data || s == "U".data || s == "u8".data

/-- Lexing of one logical line into preprocessing tokens (translation phase 3),
by maximal munch.  `none` for a quote with no partner on the line. -/
def lexAux : Nat → Bool → List Char → Option (List PPToken)
  | _, _, [] => some []
  | 0, _, _ :: _ => none
  | fuel + 1, ws, c :: cs =>
    if isBlank c then lexAux fuel true cs
    else if isDigitChar c || (c == '.' && (cs.head?.map isDigitChar == some true)) then
      (lexAux fuel false (takeNumber cs).2).map fun r => ⟨c :: (takeNumber cs).1, ws⟩ :: r
    else if isIdentStart c then
      match (takeIdent cs).2 with
      | q :: rest =>
        if (q == dquote || q == squote) && isEncodingPrefix (c :: (takeIdent cs).1) then
          match takeQuoted q rest with
          | none => none
          | some (lit, rest1) =>
            (lexAux fuel false rest1).map fun r =>
              ⟨c :: (takeIdent cs).1 ++ q :: lit, ws⟩ :: r
        else (lexAux fuel false (q :: rest)).map fun r => ⟨c :: (takeIdent cs).1, ws⟩ :: r
      | [] => some [⟨c :: (takeIdent cs).1, ws⟩]
    else if c == dquote || c == squote then
      match takeQuoted c cs with
      | none => none
      | some (lit, rest) => (lexAux fuel false rest).map fun r => ⟨c :: lit, ws⟩ :: r
    else
      match takePunct punctuators (c :: cs) with
      | some (p, rest) => (lexAux fuel false rest).map fun r => ⟨p, ws⟩ :: r
      | none => (lexAux fuel false cs).map fun r => ⟨[c], ws⟩ :: r

def lexLine (s : List Char) : Option (List PPToken) := lexAux s.length false s

/-! ## Translation phases 2 and 3 on the text of a file -/

/-- Phase 2: a backslash immediately followed by a new-line is deleted. -/
def spliceLines : List Char → List Char
  | [] => []
  | [c] => [c]
  | c :: d :: rest =>
    if c = backslash ∧ d = newline then spliceLines rest else c :: spliceLines (d :: rest)

inductive ScanMode where
  | code
  | quoted (q : Char)
  | lineComment
  | blockComment
  deriving DecidableEq, Repr

/-- Phase 3, comments: each comment is replaced by one space character.  A
`//` comment ends before the new-line, a block comment may swallow new-lines;
comment openers inside string literals and character constants do not count. -/
def stripComments : ScanMode → List Char → List Char
  | _, [] => []
  | .code, [c] => [c]
  | .code, c :: d :: rest =>
    if c = '/' ∧ d = '/' then ' ' :: stripComments .lineComment rest
    else if c = '/' ∧ d = '*' then ' ' :: stripComments .blockComment rest
    else if c = dquote ∨ c = squote then c :: stripComments (.quoted c) (d :: rest)
    else c :: stripComments .code (d :: rest)
  | .quoted _, [c] => [c]
  | .quoted q, c :: d :: rest =>
    if c = backslash then c :: d :: stripComments (.quoted q) rest
    else if c = q ∨ c = newline then c :: stripComments .code (d :: rest)
    else c :: stripComments (.quoted q) (d :: rest)
  | .lineComment, c :: cs =>
    if c = newline then c :: stripComments .code cs else stripComments .lineComment cs
  | .blockComment, [_] => []
  | .blockComment, c :: d :: rest =>
    if c = '*' ∧ d = '/' then stripComments .code rest
    else stripComments .blockComment (d :: rest)

/-- The lines of a text, split at new-line characters. -/
def splitLines : List Char → List Char → List (List Char)
  | acc, [] => [acc.reverse]
  | acc, c :: cs =>
    if c = newline then acc.reverse :: splitLines [] cs else splitLines (c :: acc) cs

/-- The logical lines of a source text, each lexed. -/
def lexText (src : List Char) : Option (List (List PPToken)) :=
  (splitLines [] (stripComments .code (spliceLines src))).mapM lexLine

/-! ## Definitions and directives (translation phase 4) -/

inductive PPError where
  /-- The fuel bound was reached: no result, and no diagnosis either. -/
  | outOfFuel
  /-- A quote without partner on its line. -/
  | lexical
  /-- A directive that is not well formed. -/
  | badDirective
  /-- A directive outside the model (`include`, `if`, `elif`, `line`, ...). -/
  | unsupported
  /-- A name defined twice with different definitions. -/
  | redefinition
  /-- `else` or `endif` without an open conditional, or one left open. -/
  | unbalanced
  /-- A function-like invocation whose parenthesis is not closed. -/
  | unterminatedArgs
  /-- A function-like invocation with the wrong number of arguments. -/
  | argCount
  /-- `##` whose result is not one preprocessing token. -/
  | badPaste
  /-- `#` whose result is not a string literal. -/
  | badStringize
  deriving DecidableEq, Repr

inductive Outcome (α : Type) where
  | ok (a : α)
  | fail (e : PPError)
  deriving DecidableEq, Repr

/-- What a `#define` records: the parameter names (`none` for an object-like
definition) and the replacement list. -/
structure Macro where
  params : Option (List Name)
  body : List PPToken
  deriving DecidableEq, Repr

abbrev MacroTable := List (Name × Macro)

def find : MacroTable → Name → Option Macro
  | [], _ => none
  | (n, m) :: rest, name => if n = name then some m else find rest name

def remove : MacroTable → Name → MacroTable
  | [], _ => []
  | (n, m) :: rest, name => if n = name then remove rest name else (n, m) :: remove rest name

/-- The predefined name whose replacement is the current line number. -/
def lineName : Name := "__LINE__".data

/-- What replacement reads: the definitions in force and the current line. -/
structure Env where
  macros : MacroTable
  line : Nat
  deriving DecidableEq, Repr

def Env.lookup (env : Env) (name : Name) : Option Macro :=
  if name = lineName then some ⟨none, [⟨Nat.toDigits 10 env.line, false⟩]⟩
  else find env.macros name

/-- The `#` operator, also spelled `%:`. -/
def isHash (t : PPToken) : Bool := t.text == "#".data || t.text == "%:".data

/-- The `##` operator, also spelled `%:%:`. -/
def isHashHash (t : PPToken) : Bool := t.text == "##".data || t.text == "%:%:".data

def clearHeadWs : List PPToken → List PPToken
  | [] => []
  | t :: ts => ⟨t.text, false⟩ :: ts

/-- The parameter list of a function-like definition after the first name has
been reached: names separated by commas up to the closing parenthesis. -/
def parseParamList : List Name → List PPToken → Outcome (List Name × List PPToken)
  | acc, p :: sep :: rest =>
    if p.text = "...".data then .fail .unsupported
    else if !isIdentifier p.text || acc.contains p.text then .fail .badDirective
    else if sep.text = ")".data then .ok ((p.text :: acc).reverse, rest)
    else if sep.text = ",".data then parseParamList (p.text :: acc) rest
    else .fail .badDirective
  | _, _ => .fail .badDirective

def parseParams : List PPToken → Outcome (List Name × List PPToken)
  | [] => .fail .badDirective
  | t :: rest => if t.text = ")".data then .ok ([], rest) else parseParamList [] (t :: rest)

/-- In a function-like definition each `#` is followed by a parameter. -/
def hashesOk (params : List Name) : List PPToken → Bool
  | [] => true
  | [t] => !isHash t
  | t :: u :: rest =>
    if isHash t then params.contains u.text && hashesOk params rest
    else hashesOk params (u :: rest)

/-- A replacement list neither begins nor ends with `##`. -/
def pasteOk (body : List PPToken) : Bool :=
  (body.head?.map isHashHash != some true) && (body.getLast?.map isHashHash != some true)

/-- The tokens of a `define` directive after the word `define`.  The definition
is function-like exactly when a left parenthesis follows the name with no
white space between. -/
def parseDefine : List PPToken → Outcome (Name × Macro)
  | [] => .fail .badDirective
  | n :: rest =>
    if !isIdentifier n.text || n.text == lineName || n.text == "defined".data then
      .fail .badDirective
    else
      match rest with
      | [] => .ok (n.text, ⟨none, []⟩)
      | lp :: rest1 =>
        if lp.text = "(".data ∧ lp.ws = false then
          match parseParams rest1 with
          | .fail e => .fail e
          | .ok (ps, body) =>
            if hashesOk ps body && pasteOk body then .ok (n.text, ⟨some ps, clearHeadWs body⟩)
            else .fail .badDirective
        else if pasteOk rest then .ok (n.text, ⟨none, clearHeadWs rest⟩)
        else .fail .badDirective

/-- One open conditional: whether its current group is read, whether an `else`
group would be read, and whether `else` has been seen. -/
structure Cond where
  taken : Bool
  pending : Bool
  inElse : Bool
  deriving DecidableEq, Repr

/-- The state that directives change: the definitions and the open conditionals. -/
structure PPState where
  macros : MacroTable
  conds : List Cond
  deriving DecidableEq, Repr

def PPState.active (st : PPState) : Bool := st.conds.all fun c => c.taken

def isDefined (t : MacroTable) (n : Name) : Bool := n == lineName || (find t n).isSome

/-- A directive line, given the tokens after its `#`. -/
def directive (st : PPState) : List PPToken → Outcome PPState
  | [] => .ok st
  | d :: args =>
    if d.text = "ifdef".data ∨ d.text = "ifndef".data then
      if st.active then
        match args with
        | [n] =>
          if isIdentifier n.text then
            let wanted := if d.text = "ifdef".data then isDefined st.macros n.text
                          else !isDefined st.macros n.text
            .ok ⟨st.macros, ⟨wanted, !wanted, false⟩ :: st.conds⟩
          else .fail .badDirective
        | _ => .fail .badDirective
      else .ok ⟨st.macros, ⟨false, false, false⟩ :: st.conds⟩
    else if d.text = "else".data then
      match st.conds with
      | [] => .fail .unbalanced
      | c :: cs => if c.inElse then .fail .unbalanced
                   else .ok ⟨st.macros, ⟨c.pending, false, true⟩ :: cs⟩
    else if d.text = "endif".data then
      match st.conds with
      | [] => .fail .unbalanced
      | _ :: cs => .ok ⟨st.macros, cs⟩
    else if d.text = "if".data ∨ d.text = "elif".data then .fail .unsupported
    else if !st.active then .ok st
    else if d.text = "define".data then
      match parseDefine args with
      | .fail e => .fail e
      | .ok (n, m) =>
        match find st.macros n with
        | none => .ok ⟨st.macros ++ [(n, m)], st.conds⟩
        | some m1 => if m1 = m then .ok st else .fail .redefinition
    else if d.text = "undef".data then
      match args with
      | [n] =>
        if isIdentifier n.text && n.text != lineName then .ok ⟨remove st.macros n.text, st.conds⟩
        else .fail .badDirective
      | _ => .fail .badDirective
    else .fail .unsupported

/-! ## Replacement -/

/-- A token during replacement, with its hide set: the names that may no longer
be replaced at this token (C11 6.10.3.4p2). -/
structure HToken where
  tok : PPToken
  hide : List Name
  deriving DecidableEq, Repr

def lift (t : PPToken) : HToken := ⟨t, []⟩

def addHide (hs : List Name) (ts : List HToken) : List HToken :=
  ts.map fun t => ⟨t.tok, hs ++ t.hide⟩

def interHide (a b : List Name) : List Name := a.filter fun n => b.contains n

def setHeadWs (ws : Bool) : List HToken → List HToken
  | [] => []
  | t :: ts => ⟨⟨t.tok.text, ws⟩, t.hide⟩ :: ts

/-- Inside a string literal or character constant the `#` operator puts a
backslash before each double quote and each backslash. -/
def escapeQuoted : List Char → List Char
  | [] => []
  | c :: cs =>
    if c = dquote ∨ c = backslash then backslash :: c :: escapeQuoted cs
    else c :: escapeQuoted cs

def spellToken (t : PPToken) : List Char :=
  if isQuoted t.text then escapeQuoted t.text else t.text

def spellRest : List PPToken → List Char
  | [] => []
  | t :: ts => (if t.ws then [' '] else []) ++ spellToken t ++ spellRest ts

/-- The spelling of a token sequence as the `#` operator writes it (C11
6.10.3.2p2): white space between tokens becomes one space, white space before
the first token is dropped. -/
def spell : List PPToken → List Char
  | [] => []
  | t :: ts => spellToken t ++ spellRest ts

/-- A plain string literal (C11 6.4.5, no encoding prefix): the spelling opens
with a double quote and lexes as exactly one token. -/
def isStringLiteral (t : PPToken) : Bool :=
  t.text.head? == some dquote && lexLine t.text == some [⟨t.text, false⟩]

/-- The spelling of an argument between double quotes. -/
def quoteSpelling (arg : List PPToken) : List Char := dquote :: (spell arg ++ [dquote])

/-- The string literal the `#` operator makes of an argument.  Where the quoted
spelling is not a string literal (an argument that ends in a backslash outside
any literal, say) C11 6.10.3.2p2 leaves the behaviour undefined; the model then
has no result but the error `badStringize`. -/
def stringize (ws : Bool) (arg : List PPToken) : Outcome PPToken :=
  if isStringLiteral ⟨quoteSpelling arg, false⟩ then .ok ⟨quoteSpelling arg, ws⟩
  else .fail .badStringize

/-- The `##` operator on two tokens: the spellings are joined and must lex as
one token. -/
def pasteTokens (l r : HToken) : Outcome HToken :=
  match lexLine (l.tok.text ++ r.tok.text) with
  | some [t] => .ok ⟨⟨t.text, l.tok.ws⟩, interHide l.hide r.hide⟩
  | _ => .fail .badPaste

/-- Paste the first token of `rs` onto the last token of the output so far
(`out`, latest token first), and append the rest of `rs`. -/
def glue (out rs : List HToken) : Outcome (List HToken) :=
  match out, rs with
  | l :: out1, r :: rs1 =>
    match pasteTokens l r with
    | .ok t => .ok (rs1.reverse ++ t :: out1)
    | .fail e => .fail e
  | _, _ => .ok (rs.reverse ++ out)

/-- The argument that belongs to the parameter `n`, when `n` is a parameter. -/
def argOf : List Name → List (List HToken) → Name → Option (List HToken)
  | p :: ps, a :: as, n => if p = n then some a else argOf ps as n
  | _, _, _ => none

/-- The argument that `#` applies to at `t u`: `t` is `#` and `u` a parameter. -/
def operandOf (params : List Name) (args : List (List HToken)) (t u : PPToken) :
    Option (List HToken) :=
  if isHash t then argOf params args u.text else none

/-- Substitution of the arguments into a replacement list (C11 6.10.3.1 to
6.10.3.3).  `out` is the output so far, latest token first.  A parameter after
`#` is replaced by the string literal of its argument as written; `##` pastes
its neighbours, a parameter next to it standing for its argument as written
(an empty argument for nothing); any other parameter is replaced by its
argument fully replaced first (`ex`) and takes the white space of the
parameter. -/
def subst (ex : List HToken → Outcome (List HToken)) (params : List Name)
    (args : List (List HToken)) : List PPToken → List HToken → Outcome (List HToken)
  | [], out => .ok out.reverse
  | [t], out =>
    match argOf params args t.text with
    | some a =>
      match ex a with
      | .ok e => .ok ((setHeadWs t.ws e).reverse ++ out).reverse
      | .fail err => .fail err
    | none => .ok (lift t :: out).reverse
  | t :: u :: rest, out =>
    match operandOf params args t u with
    | some a =>
      match stringize t.ws (a.map fun h => h.tok) with
      | .ok s => subst ex params args rest (⟨s, []⟩ :: out)
      | .fail err => .fail err
    | none =>
      if isHashHash t then
        match glue out ((argOf params args u.text).getD [lift u]) with
        | .ok out1 => subst ex params args rest out1
        | .fail err => .fail err
      else if isHashHash u then
        match argOf params args t.text with
        | some [] =>
          match rest with
          | [] => .ok out.reverse
          | v :: rest1 =>
            match argOf params args v.text with
            | some b => subst ex params args rest1 (b.reverse ++ out)
            | none => subst ex params args (v :: rest1) out
        | some (a :: as) =>
          subst ex params args (u :: rest) ((setHeadWs t.ws (a :: as)).reverse ++ out)
        | none => subst ex params args (u :: rest) (lift t :: out)
      else
        match argOf params args t.text with
        | some a =>
          match ex a with
          | .ok e => subst ex params args (u :: rest) ((setHeadWs t.ws e).reverse ++ out)
          | .fail err => .fail err
        | none => subst ex params args (u :: rest) (lift t :: out)

/-- The arguments of a function-like invocation, read after its left
parenthesis: split at commas outside nested parentheses, up to the matching
right parenthesis.  Gives the arguments, the closing token and what follows. -/
def collectArgs : Nat → List HToken → List (List HToken) → List HToken →
    Option (List (List HToken) × HToken × List HToken)
  | _, _, _, [] => none
  | depth, cur, done, t :: rest =>
    if t.tok.text = ")".data then
      match depth with
      | 0 => some ((cur.reverse :: done).reverse, t, rest)
      | d + 1 => collectArgs d (t :: cur) done rest
    else if t.tok.text = "(".data then collectArgs (depth + 1) (t :: cur) done rest
    else if t.tok.text = ",".data ∧ depth = 0 then collectArgs 0 [] (cur.reverse :: done) rest
    else collectArgs depth (t :: cur) done rest

/-- An invocation `f()` of a definition without parameters has no argument. -/
def fitArgs (params : List Name) (args : List (List HToken)) : List (List HToken) :=
  if params = [] ∧ args = [[]] then [] else args

def Outcome.cons {α : Type} (a : α) : Outcome (List α) → Outcome (List α)
  | .ok r => .ok (a :: r)
  | .fail e => .fail e

/-- Rescanning and further replacement (C11 6.10.3.4) of a token sequence. -/
def expand (env : Env) : Nat → List HToken → Outcome (List HToken)
  | 0, _ => .fail .outOfFuel
  | _ + 1, [] => .ok []
  | fuel + 1, t :: rest =>
    if !isIdentifier t.tok.text || t.hide.contains t.tok.text then
      (expand env fuel rest).cons t
    else
      match env.lookup t.tok.text with
      | none => (expand env fuel rest).cons t
      | some ⟨none, body⟩ =>
        match subst .ok [] [] body [] with
        | .fail e => .fail e
        | .ok os =>
          expand env fuel (setHeadWs t.tok.ws (addHide (t.tok.text :: t.hide) os) ++ rest)
      | some ⟨some params, body⟩ =>
        match rest with
        | [] => .ok [t]
        | lp :: rest1 =>
          if lp.tok.text = "(".data then
            match collectArgs 0 [] [] rest1 with
            | none => .fail .unterminatedArgs
            | some (args, cl, rest2) =>
              if params.length ≠ (fitArgs params args).length then .fail .argCount
              else
                match subst (expand env fuel) params (fitArgs params args) body [] with
                | .fail e => .fail e
                | .ok os =>
                  expand env fuel
                    (setHeadWs t.tok.ws
                      (addHide (t.tok.text :: interHide t.hide cl.hide) os) ++ rest2)
          else (expand env fuel (lp :: rest1)).cons t

/-- Replacement on the tokens of a text line. -/
def expandLine (env : Env) (fuel : Nat) (toks : List PPToken) : Outcome (List PPToken) :=
  match expand env fuel (toks.map lift) with
  | .ok r => .ok (r.map fun h => h.tok)
  | .fail e => .fail e

/-! ## Lines and files -/

/-- One logical line at line number `lineNo`: a directive changes the state and
gives no output; a text line is replaced under the definitions in force and
leaves the state as it is; in a skipped group only conditionals are read. -/
def processLine (fuel : Nat) (st : PPState) (lineNo : Nat) (toks : List PPToken) :
    Outcome (PPState × List PPToken) :=
  match toks with
  | [] => .ok (st, [])
  | h :: rest =>
    if isHash h then
      match directive st rest with
      | .ok st1 => .ok (st1, [])
      | .fail e => .fail e
    else if st.active then
      match expandLine ⟨st.macros, lineNo⟩ fuel toks with
      | .ok out => .ok (st, out)
      | .fail e => .fail e
    else .ok (st, [])

/-- A sequence of numbered lines, the state threaded through; the outputs are
kept line by line. -/
def runLines (fuel : Nat) : PPState → List (Nat × List PPToken) →
    Outcome (PPState × List (List PPToken))
  | st, [] => .ok (st, [])
  | st, (n, l) :: ls =>
    match processLine fuel st n l with
    | .fail e => .fail e
    | .ok (st1, out) =>
      match runLines fuel st1 ls with
      | .fail e => .fail e
      | .ok (st2, outs) => .ok (st2, out :: outs)

def numberLines {α : Type} : Nat → List α → List (Nat × α)
  | _, [] => []
  | n, a :: as => (n, a) :: numberLines (n + 1) as

/-- Reading a whole source text from its first line, as `#include` does: its
conditionals must close inside it; the definitions it leaves are the result. -/
def readText (fuel : Nat) (macros : MacroTable) (src : List Char) :
    Outcome (MacroTable × List (List PPToken)) :=
  match lexText src with
  | none => .fail .lexical
  | some lines =>
    match runLines fuel ⟨macros, []⟩ (numberLines 1 lines) with
    | .fail e => .fail e
    | .ok (st, outs) => if st.conds = [] then .ok (st.macros, outs) else .fail .unbalanced

/-! ## The header -/

/-- The lines of `core/src/cpp/version.h`, verbatim.  The file begins with an
empty line and has no new-line after `#endif`. -/
def version_h_lines : List String :=
  ["",
   "// This file is part of YumeBox.",
   "//",
   "// YumeBox is free software: you can redistribute it and/or modify",
   "// it under the terms of the GNU Affero General Public License as",
   "// published by the Free Software Foundation, either version 3 of the",
   "// License.",
   "//",
   "// This program is distributed in the hope that it will be useful,",
   "// but WITHOUT ANY WARRANTY; without even the implied warranty of",
   "// MERCHANTABILITY or FITNESS FOR A PARTICULAR PURPOSE. See the",
   "// GNU Affero General Public License for more details.",
   "//",
   "// You should have received a copy of the GNU Affero General Public License",
   "// along with this program. If not, see <https://www.gnu.org/licenses/>.",
   "//",
   "// Copyright (c)  YumeLira 2025.",
   "//",
   "",
   "#ifndef VERSION_H_IN",
   "#define VERSION_H_IN",
   "",
   "/**",
   " * 当前编译core版本号",
   " */",
   "",
   "#define GIT_VERSION Alpha-d33dbbe2",
   "#define make_Str(x) #x",
   "#define make_String(x) make_Str(x)",
   "",
   "#endif"]

/-- The text of `core/src/cpp/version.h`. -/
def version_h : List Char := (String.intercalate "\n" version_h_lines).data

/-- Line 27: `#define GIT_VERSION Alpha-d33dbbe2`. -/
def GIT_VERSION : Macro :=
  ⟨none, [⟨"Alpha".data, false⟩, ⟨"-".data, false⟩, ⟨"d33dbbe2".data, false⟩]⟩

/-- Line 28: `#define make_Str(x) #x`. -/
def make_Str : Macro :=
  ⟨some ["x".data], [⟨"#".data, false⟩, ⟨"x".data, false⟩]⟩

/-- Line 29: `#define make_String(x) make_Str(x)`. -/
def make_String : Macro :=
  ⟨some ["x".data],
   [⟨"make_Str".data, false⟩, ⟨"(".data, false⟩, ⟨"x".data, false⟩, ⟨")".data, false⟩]⟩

/-- Line 21: `#define VERSION_H_IN`, the include guard. -/
def VERSION_H_IN : Macro := ⟨none, []⟩

/-- The three definitions the header exists for, in source order. -/
def versionDefs : MacroTable :=
  [("GIT_VERSION".data, GIT_VERSION), ("make_Str".data, make_Str),
   ("make_String".data, make_String)]

/-- What including the header into a unit without definitions leaves in force. -/
def headerDefs : MacroTable := ("VERSION_H_IN".data, VERSION_H_IN) :: versionDefs

/-- A token written without white space before it. -/
def tk (s : String) : PPToken := ⟨s.data, false⟩

/-- The invocation `name(arg)` as a token sequence. -/
def invoke (name : String) (arg : List PPToken) : List PPToken :=
  tk name :: tk "(" :: (arg ++ [tk ")"])

/-- The character a simple escape sequence stands for (C11 6.4.4.4), given the
character after the backslash. -/
def simpleEscape (d : Char) : Option Char :=
  if d = dquote ∨ d = squote ∨ d = backslash ∨ d = '?' then some d
  else if d = 'a' then some (Char.ofNat 7)
  else if d = 'b' then some (Char.ofNat 8)
  else if d = 't' then some (Char.ofNat 9)
  else if d = 'n' then some (Char.ofNat 10)
  else if d = 'v' then some (Char.ofNat 11)
  else if d = 'f' then some (Char.ofNat 12)
  else if d = 'r' then some (Char.ofNat 13)
  else none

/-- The characters of a string literal after its opening quote up to the
closing quote, simple escapes undone; `none` where the closing quote is missing
or not last, and for octal, hexadecimal and universal escapes, which are not
read. -/
def unescape : List Char → Option (List Char)
  | [] => none
  | [c] => if c = dquote then some [] else none
  | c :: d :: rest =>
    if c = dquote then none
    else if c = backslash then
      match simpleEscape d with
      | some e => (unescape rest).map fun r => e :: r
      | none => none
    else (unescape (d :: rest)).map fun r => c :: r

/-- The value of a plain string literal token: the characters it stands for. -/
def stringValue (t : PPToken) : Option (List Char) :=
  match t.text with
  | [] => none
  | q :: rest => if q = dquote then unescape rest else none

/-- One argument of a function-like invocation (C11 6.10.3p11), read at nesting
depth `d`: parentheses are balanced and no comma stands outside them. -/
def isArg : Nat → List PPToken → Bool
  | d, [] => d == 0
  | d, t :: ts =>
    if t.text = ")".data then
      match d with
      | 0 => false
      | d + 1 => isArg d ts
    else if t.text = "(".data then isArg (d + 1) ts
    else if t.text = ",".data ∧ d = 0 then false
    else isArg d ts

def sourceRest : List PPToken → List Char
  | [] => []
  | t :: ts => (if t.ws then [' '] else []) ++ t.text ++ sourceRest ts

/-- The token sequence written out as source text, one space for white space. -/
def sourceText : List PPToken → List Char
  | [] => []
  | t :: ts => t.text ++ sourceRest ts

/-- Two neighbours that lexing would have read as one token: no white space
between them, the first ends and the second begins with an identifier
character. -/
def touching (t u : PPToken) : Bool :=
  !u.ws && (t.text.getLast?.map isIdentChar == some true)
    && (u.text.head?.map isIdentChar == some true)

/-- The part of maximal munch that the results below rest on: no token is
empty and no two neighbours are `touching`.  Every line the lexer reads and
every replacement list the reader records is of this kind (`lexLine_munched`,
`readText_munched`). -/
def Munched : List PPToken → Bool
  | [] => true
  | [t] => !t.text.isEmpty
  | t :: u :: rest => !t.text.isEmpty && !touching t u && Munched (u :: rest)

/-- No backslash outside string literals and character constants, the tokens
whose spelling holds a quote character: this is enough for the `#` operator to
give a string literal whose value is the source text of the argument. -/
def noStrayBackslash (ts : List PPToken) : Bool :=
  ts.all fun t => isQuoted t.text || !t.text.contains backslash

/-- The use the header is written for: `make_String(GIT_VERSION)`. -/
def versionUse : List PPToken := invoke "make_String" [tk "GIT_VERSION"]

/-- The header's definitions after the includer adds `#define FOO 42`. -/
def fooDefs : MacroTable := headerDefs ++ [("FOO".data, ⟨none, [tk "42"]⟩)]

/-- The header's definitions after the includer adds `#define FOO 1,2`. -/
def commaDefs : MacroTable := headerDefs ++ [("FOO".data, ⟨none, [tk "1", tk ",", tk "2"]⟩)]

/-- The header's definitions after the includer adds `#define FOO 4 ## 2`. -/
def pasteDefs : MacroTable :=
  headerDefs ++ [("FOO".data, ⟨none, [tk "4", ⟨"##".data, true⟩, ⟨"2".data, true⟩]⟩)]

/-- The header's definitions after the includer adds `#define Alpha Beta`. -/
def betaDefs : MacroTable := headerDefs ++ [("Alpha".data, ⟨none, [tk "Beta"]⟩)]

/-- The header's definitions after the includer adds `#define FOO \/**/`, a
replacement list that is a lone backslash. -/
def slashDefs : MacroTable := headerDefs ++ [("FOO".data, ⟨none, [⟨[backslash], false⟩]⟩)]

/-- Every replacement list of the table is munched. -/
def allMunched (defs : MacroTable) : Prop := ∀ p ∈ defs, Munched p.2.body = true

instance (defs : MacroTable) : Decidable (allMunched defs) := by
  unfold allMunched
  infer_instance

theorem takeIdent_all (cs : List Char) (h : cs.all isIdentChar = true) :
    takeIdent cs = (cs, []) := by
  induction cs with
  | nil => rfl
  | cons c cs ih =>
    simp only [List.all_cons, Bool.and_eq_true] at h
    simp [takeIdent, h.1, ih h.2]

theorem not_blank_of_identStart (c : Char) (h : isIdentStart c = true) : isBlank c = false := by
  simp only [isIdentStart, isBlank, decide_eq_true_eq, decide_eq_false_iff_not] at *
  omega

theorem not_digit_of_identStart (c : Char) (h : isIdentStart c = true) :
    isDigitChar c = false := by
  simp only [isIdentStart, isDigitChar, decide_eq_true_eq, decide_eq_false_iff_not] at *
  omega

theorem not_quote_of_identChar (c : Char) (h : isIdentChar c = true) :
    (c == dquote || c == squote) = false := by
  cases hq : (c == dquote || c == squote) with
  | false => rfl
  | true =>
    simp only [Bool.or_eq_true, beq_iff_eq] at hq
    rcases hq with rfl | rfl
    · exact absurd h (by decide)
    · exact absurd h (by decide)

/-- An identifier lexes as one token. -/
theorem lexLine_identifier (s : List Char) (h : isIdentifier s = true) :
    lexLine s = some [⟨s, false⟩] := by
  cases s with
  | nil => simp [isIdentifier] at h
  | cons c cs =>
    simp only [isIdentifier, Bool.and_eq_true] at h
    have hdot : (c == '.') = false := by
      cases hd : (c == '.') with
      | false => rfl
      | true =>
        have : c = '.' := by simpa using hd
        subst this
        exact absurd h.1 (by decide)
    simp [lexLine, lexAux, not_blank_of_identStart c h.1, not_digit_of_identStart c h.1, hdot,
      h.1, takeIdent_all cs h.2]

theorem isIdentifier_dquote (s : List Char) : isIdentifier (dquote :: s) = false := by
  simp [isIdentifier, isIdentStart, dquote]

theorem isQuoted_of_isIdentifier (s : List Char) (h : isIdentifier s = true) :
    isQuoted s = false := by
  cases s with
  | nil => rfl
  | cons c cs =>
    simp only [isIdentifier, Bool.and_eq_true] at h
    have hc : isIdentChar c = true := by simp [isIdentChar, h.1]
    have hall : ∀ d ∈ c :: cs, isIdentChar d = true := by
      intro d hd
      rcases List.mem_cons.mp hd with rfl | hd
      · exact hc
      · exact List.all_eq_true.mp h.2 d hd
    cases hq : isQuoted (c :: cs) with
    | false => rfl
    | true =>
      obtain ⟨d, hd, hdq⟩ := List.any_eq_true.mp hq
      rw [not_quote_of_identChar d (hall d hd)] at hdq
      exact absurd hdq (by decide)

theorem isQuoted_append (a b : List Char) : isQuoted (a ++ b) = (isQuoted a || isQuoted b) := by
  simp [isQuoted, List.any_append]

theorem isQuoted_escapeQuoted (s : List Char) : isQuoted (escapeQuoted s) = isQuoted s := by
  induction s with
  | nil => rfl
  | cons c cs ih =>
    have hb : (backslash == dquote || backslash == squote) = false := by decide
    have ih1 : (escapeQuoted cs).any (fun c => c == dquote || c == squote)
        = cs.any (fun c => c == dquote || c == squote) := ih
    by_cases hc : c = dquote ∨ c = backslash
    · simp only [escapeQuoted, hc, if_true, isQuoted, List.any_cons, hb, ih1, Bool.false_or]
    · simp only [escapeQuoted, hc, if_false, isQuoted, List.any_cons, ih1]

theorem spellToken_plain (t : PPToken) (h : isQuoted (spellToken t) = false) :
    spellToken t = t.text := by
  unfold spellToken at h ⊢
  by_cases hq : isQuoted t.text = true
  · rw [if_pos hq, isQuoted_escapeQuoted] at h
    rw [hq] at h
    exact absurd h (by decide)
  · rw [if_neg hq]

theorem spellRest_plain (ts : List PPToken) (h : isQuoted (spellRest ts) = false) :
    spellRest ts = sourceRest ts := by
  induction ts with
  | nil => rfl
  | cons t ts ih =>
    simp only [spellRest, isQuoted_append, Bool.or_eq_false_iff] at h
    simp only [spellRest, sourceRest, spellToken_plain t h.1.2, ih h.2]

/-- Where the `#` operator writes no quote character, it writes the source text. -/
theorem spell_plain (ts : List PPToken) (h : isQuoted (spell ts) = false) :
    spell ts = sourceText ts := by
  cases ts with
  | nil => rfl
  | cons t ts =>
    simp only [spell, isQuoted_append, Bool.or_eq_false_iff] at h
    simp only [spell, sourceText, spellToken_plain t h.1, spellRest_plain ts h.2]

/-! ## Lemmas on the `#` operator -/

theorem takeQuoted_cons_other (q c : Char) (cs : List Char) (h1 : c ≠ q)
    (h2 : c ≠ backslash) :
    takeQuoted q (c :: cs) = (takeQuoted q cs).map fun r => (c :: r.1, r.2) := by
  cases cs <;> simp [takeQuoted, h1, h2]

theorem takeQuoted_plain (s r : List Char) (h : ∀ c ∈ s, c ≠ dquote ∧ c ≠ backslash) :
    takeQuoted dquote (s ++ r) = (takeQuoted dquote r).map fun p => (s ++ p.1, p.2) := by
  induction s with
  | nil => simp
  | cons c s ih =>
    have hc := h c (List.mem_cons_self _ _)
    have ih1 := ih (fun d hd => h d (List.mem_cons_of_mem _ hd))
    simp [takeQuoted_cons_other _ _ _ hc.1 hc.2, ih1, Function.comp_def]

theorem takeQuoted_escaped (s r : List Char) :
    takeQuoted dquote (escapeQuoted s ++ r)
      = (takeQuoted dquote r).map fun p => (escapeQuoted s ++ p.1, p.2) := by
  induction s with
  | nil => simp [escapeQuoted]
  | cons c s ih =>
    have hb : backslash ≠ dquote := by decide
    by_cases hc : c = dquote ∨ c = backslash
    · simp [escapeQuoted, hc, takeQuoted, hb, ih, Function.comp_def]
    · have h1 : c ≠ dquote := fun e => hc (Or.inl e)
      have h2 : c ≠ backslash := fun e => hc (Or.inr e)
      simp [escapeQuoted, hc, takeQuoted_cons_other _ _ _ h1 h2, ih, Function.comp_def]

theorem unescape_plain (s r : List Char) (h : ∀ c ∈ s, c ≠ dquote ∧ c ≠ backslash) :
    unescape (s ++ r) = (unescape r).map fun v => s ++ v := by
  induction s with
  | nil => simp
  | cons c s ih =>
    have hc := h c (List.mem_cons_self _ _)
    have ih1 := ih (fun d hd => h d (List.mem_cons_of_mem _ hd))
    cases hsr : s ++ r with
    | nil =>
      have hs : s = [] := (List.append_eq_nil.mp hsr).1
      have hr : r = [] := (List.append_eq_nil.mp hsr).2
      subst hs hr
      simp [unescape, hc.1]
    | cons d rest =>
      rw [hsr] at ih1
      simp [hsr, unescape, hc.1, hc.2, ih1, Function.comp_def]

theorem unescape_escaped (s r : List Char) :
    unescape (escapeQuoted s ++ r) = (unescape r).map fun v => s ++ v := by
  induction s with
  | nil => simp [escapeQuoted]
  | cons c s ih =>
    have hb : backslash ≠ dquote := by decide
    by_cases hc : c = dquote ∨ c = backslash
    · have he : simpleEscape c = some c := by
        rcases hc with rfl | rfl <;> decide
      simp [escapeQuoted, hc, unescape, hb, he, ih, Function.comp_def]
    · have h1 : c ≠ dquote := fun e => hc (Or.inl e)
      have h2 : c ≠ backslash := fun e => hc (Or.inr e)
      cases hsr : escapeQuoted s ++ r with
      | nil =>
        have hr : r = [] := (List.append_eq_nil.mp hsr).2
        have hs : s = [] := by
          cases s with
          | nil => rfl
          | cons a s =>
            have := (List.append_eq_nil.mp hsr).1
            simp only [escapeQuoted] at this
            split at this <;> exact absurd this (by simp)
        subst hs hr
        simp [escapeQuoted, hc, unescape, h1, h2]
      | cons d rest =>
        rw [hsr] at ih
        simp [escapeQuoted, hc, hsr, unescape, h1, h2, ih, Function.comp_def]

theorem plain_of_unquoted (s : List Char) (hq : isQuoted s = false)
    (hb : s.contains backslash = false) : ∀ c ∈ s, c ≠ dquote ∧ c ≠ backslash := by
  intro c hc
  constructor
  · rintro rfl
    have : isQuoted s = true := List.any_eq_true.mpr ⟨dquote, hc, by decide⟩
    rw [hq] at this
    exact absurd this (by decide)
  · rintro rfl
    have : s.contains backslash = true := List.contains_iff_exists_mem_beq.mpr ⟨backslash, hc, by simp⟩
    rw [hb] at this
    exact absurd this (by decide)

theorem takeQuoted_spellToken (t : PPToken) (r : List Char)
    (h : (isQuoted t.text || !t.text.contains backslash) = true) :
    takeQuoted dquote (spellToken t ++ r)
      = (takeQuoted dquote r).map fun p => (spellToken t ++ p.1, p.2) := by
  unfold spellToken
  cases hq : isQuoted t.text with
  | true => simpa using takeQuoted_escaped t.text r
  | false =>
    rw [hq] at h
    simpa using takeQuoted_plain t.text r (plain_of_unquoted t.text hq (by simpa using h))

theorem unescape_spellToken (t : PPToken) (r : List Char)
    (h : (isQuoted t.text || !t.text.contains backslash) = true) :
    unescape (spellToken t ++ r) = (unescape r).map fun v => t.text ++ v := by
  unfold spellToken
  cases hq : isQuoted t.text with
  | true => simpa using unescape_escaped t.text r
  | false =>
    rw [hq] at h
    simpa using unescape_plain t.text r (plain_of_unquoted t.text hq (by simpa using h))

theorem space_plain : ∀ c ∈ [' '], c ≠ dquote ∧ c ≠ backslash := by
  intro c hc
  have : c = ' ' := by simpa using hc
  subst this
  decide

theorem takeQuoted_spellRest (ts : List PPToken) (r : List Char)
    (h : noStrayBackslash ts = true) :
    takeQuoted dquote (spellRest ts ++ r)
      = (takeQuoted dquote r).map fun p => (spellRest ts ++ p.1, p.2) := by
  induction ts with
  | nil => simp [spellRest]
  | cons t ts ih =>
    simp only [noStrayBackslash, List.all_cons, Bool.and_eq_true] at h
    have ih1 := ih (by simpa [noStrayBackslash] using h.2)
    have ht := takeQuoted_spellToken t (spellRest ts ++ r) h.1
    cases hw : t.ws with
    | false => simp [spellRest, hw, ht, ih1, Function.comp_def]
    | true =>
      have hsp := takeQuoted_plain [' '] (spellToken t ++ (spellRest ts ++ r)) space_plain
      simp only [List.singleton_append] at hsp
      simp [spellRest, hw, hsp, ht, ih1, Function.comp_def]

theorem unescape_spellRest (ts : List PPToken) (r : List Char)
    (h : noStrayBackslash ts = true) :
    unescape (spellRest ts ++ r) = (unescape r).map fun v => sourceRest ts ++ v := by
  induction ts with
  | nil => simp [spellRest, sourceRest]
  | cons t ts ih =>
    simp only [noStrayBackslash, List.all_cons, Bool.and_eq_true] at h
    have ih1 := ih (by simpa [noStrayBackslash] using h.2)
    have ht := unescape_spellToken t (spellRest ts ++ r) h.1
    cases hw : t.ws with
    | false => simp [spellRest, sourceRest, hw, ht, ih1, Function.comp_def]
    | true =>
      have hsp := unescape_plain [' '] (spellToken t ++ (spellRest ts ++ r)) space_plain
      simp only [List.singleton_append] at hsp
      simp [spellRest, sourceRest, hw, hsp, ht, ih1, Function.comp_def]

theorem takeQuoted_spell (x : List PPToken) (h : noStrayBackslash x = true) :
    takeQuoted dquote (spell x ++ [dquote]) = some (spell x ++ [dquote], []) := by
  cases x with
  | nil => simp [spell, takeQuoted]
  | cons t ts =>
    simp only [noStrayBackslash, List.all_cons, Bool.and_eq_true] at h
    have h1 := takeQuoted_spellToken t (spellRest ts ++ [dquote]) h.1
    have h2 := takeQuoted_spellRest ts [dquote] (by simpa [noStrayBackslash] using h.2)
    simp [spell, h1, h2, takeQuoted]

theorem unescape_spell (x : List PPToken) (h : noStrayBackslash x = true) :
    unescape (spell x ++ [dquote]) = some (sourceText x) := by
  cases x with
  | nil => simp [spell, sourceText, unescape]
  | cons t ts =>
    simp only [noStrayBackslash, List.all_cons, Bool.and_eq_true] at h
    have h1 := unescape_spellToken t (spellRest ts ++ [dquote]) h.1
    have h2 := unescape_spellRest ts [dquote] (by simpa [noStrayBackslash] using h.2)
    simp [spell, sourceText, h1, h2, unescape]

/-- Without a stray backslash the quoted spelling is a string literal. -/
theorem isStringLiteral_quoteSpelling (x : List PPToken) (ws : Bool)
    (h : noStrayBackslash x = true) : isStringLiteral ⟨quoteSpelling x, ws⟩ = true := by
  have hb : isBlank dquote = false := by decide
  have hd : isDigitChar dquote = false := by decide
  have hi : isIdentStart dquote = false := by decide
  have hdot : (dquote == '.') = false := by decide
  simp [isStringLiteral, quoteSpelling, lexLine, lexAux, hb, hd, hi, hdot, takeQuoted_spell x h]

/-- Without a stray backslash the `#` operator has a result, the quoted spelling. -/
theorem stringize_ok (ws : Bool) (x : List PPToken) (h : noStrayBackslash x = true) :
    stringize ws x = .ok ⟨quoteSpelling x, ws⟩ := by
  simp [stringize, isStringLiteral_quoteSpelling x false h]

/-- The value of the quoted spelling is the source text of the tokens. -/
theorem stringValue_quoteSpelling (x : List PPToken) (ws : Bool)
    (h : noStrayBackslash x = true) :
    stringValue ⟨quoteSpelling x, ws⟩ = some (sourceText x) := by
  simp [stringValue, quoteSpelling, unescape_spell x h]

/-! ## Lemmas on maximal munch -/

theorem takeIdent_rest (cs : List Char) :
    ∀ d r, (takeIdent cs).2 = d :: r → isIdentChar d = false := by
  induction cs with
  | nil => intro d r h; simp [takeIdent] at h
  | cons c cs ih =>
    intro d r h
    by_cases hc : isIdentChar c = true
    · simp only [takeIdent, hc, if_true] at h
      exact ih d r h
    · simp only [takeIdent, hc] at h
      simp only [if_false, List.cons.injEq, Bool.false_eq_true] at h
      rw [← h.1]
      simpa using hc

theorem takeNumber_rest (cs : List Char) :
    ∀ d r, (takeNumber cs).2 = d :: r → isIdentChar d = false := by
  induction cs using takeNumber.induct with
  | case1 => intro d r h; simp [takeNumber] at h
  | case2 c hc => intro d r h; simp [takeNumber, hc] at h
  | case3 c hc =>
    intro d r h
    simp only [takeNumber, hc] at h
    simp only [if_false, List.cons.injEq, Bool.false_eq_true] at h
    rw [← h.1]
    simp only [Bool.or_eq_true, not_or, Bool.not_eq_true] at hc
    exact hc.1
  | case4 c s rest hc he ih =>
    intro d r h
    simp only [takeNumber, hc, he, if_true] at h
    exact ih d r h
  | case5 c s rest hc he ih =>
    intro d r h
    simp only [takeNumber, hc, he, if_true] at h
    simp only [if_false, Bool.false_eq_true] at h
    exact ih d r h
  | case6 c s rest hc =>
    intro d r h
    simp only [takeNumber, hc] at h
    simp only [if_false, List.cons.injEq, Bool.false_eq_true] at h
    rw [← h.1]
    simp only [Bool.or_eq_true, not_or, Bool.not_eq_true] at hc
    exact hc.1

theorem takeQuoted_last (q : Char) (s : List Char) :
    ∀ lit r, takeQuoted q s = some (lit, r) → lit.getLast? = some q := by
  induction s using takeQuoted.induct q with
  | case1 => intro lit r h; simp [takeQuoted] at h
  | case2 cs =>
    intro lit r h
    have hq : takeQuoted q (q :: cs) = some ([q], cs) := by cases cs <;> simp [takeQuoted]
    rw [hq] at h
    simp only [Option.some.injEq, Prod.mk.injEq] at h
    rw [← h.1]
    rfl
  | case3 hb =>
    intro lit r h
    simp [takeQuoted, hb] at h
  | case4 e rest hb ih =>
    intro lit r h
    simp only [takeQuoted, hb, if_true, if_false, Option.map_eq_some', Prod.mk.injEq,
      Prod.exists] at h
    obtain ⟨a, b, hab, h1, _⟩ := h
    have := ih a b hab
    rw [← h1]
    cases a with
    | nil => simp at this
    | cons x a => simpa [List.getLast?_cons_cons] using this
  | case5 c cs hc hb ih =>
    intro lit r h
    rw [takeQuoted_cons_other q c cs hc hb] at h
    simp only [Option.map_eq_some', Prod.mk.injEq, Prod.exists] at h
    obtain ⟨a, b, hab, h1, _⟩ := h
    have := ih a b hab
    rw [← h1]
    cases a with
    | nil => simp at this
    | cons x a => simpa [List.getLast?_cons_cons] using this

theorem dropFront_head (p s r : List Char) (c : Char) (h : dropFront p (c :: s) = some r)
    (hp : p ≠ []) : p.head? = some c := by
  cases p with
  | nil => exact absurd rfl hp
  | cons a p =>
    by_cases hac : a = c
    · simp [hac]
    · simp [dropFront, hac] at h

theorem takePunct_mem (table : List (List Char)) (s p r : List Char)
    (h : takePunct table s = some (p, r)) : p ∈ table ∧ dropFront p s = some r := by
  induction table with
  | nil => simp [takePunct] at h
  | cons a table ih =>
    simp only [takePunct] at h
    split at h
    · rename_i rest hd
      simp only [Option.some.injEq, Prod.mk.injEq] at h
      rw [← h.1, ← h.2]
      exact ⟨List.mem_cons_self _ _, hd⟩
    · exact ⟨List.mem_cons_of_mem _ (ih h).1, (ih h).2⟩

theorem punctuators_shape :
    ∀ p ∈ punctuators, p ≠ [] ∧ (p.getLast?.map isIdentChar == some true) = false := by
  decide

theorem getLast?_cons_append (c : Char) (a l : List Char) (hl : l ≠ []) :
    (c :: (a ++ l)).getLast? = l.getLast? := by
  induction a generalizing c with
  | nil =>
    cases l with
    | nil => exact absurd rfl hl
    | cons x l => simp [List.getLast?_cons_cons]
  | cons y a ih =>
    rw [List.cons_append, List.getLast?_cons_cons]
    exact ih y

/-- One step of the lexer at a character that is not white space: the token it
reads, what it leaves, and why the two cannot touch. -/
theorem lexAux_step (fuel : Nat) (ws : Bool) (c : Char) (cs : List Char) (ts : List PPToken)
    (hb : isBlank c = false) (h : lexAux (fuel + 1) ws (c :: cs) = some ts) :
    ∃ tok rest1 ts1, lexAux fuel false rest1 = some ts1 ∧ ts = tok :: ts1 ∧ tok.ws = ws ∧
      tok.text.head? = some c ∧
      ((tok.text.getLast?.map isIdentChar == some true) = true →
        ∀ d r, rest1 = d :: r → isIdentChar d = false) := by
  simp only [lexAux, hb] at h
  simp only [Bool.false_eq_true, if_false] at h
  split at h
  · -- pp-number
    simp only [Option.map_eq_some'] at h
    obtain ⟨ts1, h1, rfl⟩ := h
    exact ⟨_, _, ts1, h1, rfl, rfl, rfl, fun _ d r hr => takeNumber_rest cs d r hr⟩
  · split at h
    · -- identifier, or a literal with encoding prefix
      split at h
      · rename_i q rest hq
        split at h
        · rename_i hpre
          split at h
          · exact Option.noConfusion h
          · rename_i lit rest1 hlit
            simp only [Option.map_eq_some'] at h
            obtain ⟨ts1, h1, rfl⟩ := h
            refine ⟨_, _, ts1, h1, rfl, rfl, rfl, ?_⟩
            intro hlast
            have hl := takeQuoted_last q rest lit rest1 hlit
            have hqq : isIdentChar q = false := by
              simp only [Bool.and_eq_true, Bool.or_eq_true, beq_iff_eq] at hpre
              rcases hpre.1 with rfl | rfl <;> decide
            exfalso
            cases lit with
            | nil => simp at hl
            | cons x lit =>
              have : (c :: ((takeIdent cs).1 ++ q :: x :: lit)).getLast? = some q := by
                rw [getLast?_cons_append c _ (q :: x :: lit) (by simp),
                  List.getLast?_cons_cons]
                exact hl
              simp [this, hqq] at hlast
        · simp only [Option.map_eq_some'] at h
          obtain ⟨ts1, h1, rfl⟩ := h
          refine ⟨_, _, ts1, h1, rfl, rfl, rfl, ?_⟩
          intro _ d r hr
          simp only [List.cons.injEq] at hr
          rw [← hr.1]
          exact takeIdent_rest cs q rest hq
      · simp only [Option.some.injEq] at h
        exact ⟨_, [], [], by simp [lexAux], h.symm, rfl, rfl, fun _ d r hr => by simp at hr⟩
    · split at h
      · -- string literal or character constant
        rename_i hquote
        split at h
        · exact Option.noConfusion h
        · rename_i lit rest hlit
          simp only [Option.map_eq_some'] at h
          obtain ⟨ts1, h1, rfl⟩ := h
          refine ⟨_, _, ts1, h1, rfl, rfl, rfl, ?_⟩
          intro hlast
          have hl := takeQuoted_last c cs lit rest hlit
          have hqq : isIdentChar c = false := by
            simp only [Bool.or_eq_true, beq_iff_eq] at hquote
            rcases hquote with rfl | rfl <;> decide
          exfalso
          cases lit with
          | nil => simp at hl
          | cons x lit =>
            have : (c :: x :: lit).getLast? = some c := by
              rw [List.getLast?_cons_cons]
              exact hl
            simp [this, hqq] at hlast
      · split at h
        · -- punctuator
          rename_i p rest hp
          simp only [Option.map_eq_some'] at h
          obtain ⟨ts1, h1, rfl⟩ := h
          have hm := takePunct_mem punctuators (c :: cs) p rest hp
          have hs := punctuators_shape p hm.1
          refine ⟨_, _, ts1, h1, rfl, rfl, dropFront_head p cs rest c hm.2 hs.1, ?_⟩
          intro hlast
          rw [hs.2] at hlast
          exact absurd hlast (by decide)
        · -- any other character
          rename_i hnum hid _ _ _
          simp only [Option.map_eq_some'] at h
          obtain ⟨ts1, h1, rfl⟩ := h
          refine ⟨_, _, ts1, h1, rfl, rfl, rfl, ?_⟩
          intro hlast
          exfalso
          have hc : isIdentChar c = false := by
            simp only [Bool.or_eq_true, not_or, Bool.not_eq_true] at hnum
            simp only [Bool.not_eq_true] at hid
            simp [isIdentChar, hnum.1, hid]
          simp [hc] at hlast

theorem lexAux_blank (fuel : Nat) (ws : Bool) (c : Char) (cs : List Char)
    (hb : isBlank c = true) : lexAux (fuel + 1) ws (c :: cs) = lexAux fuel true cs := by
  simp [lexAux, hb]

theorem lexAux_head (fuel : Nat) :
    ∀ (ws : Bool) (s : List Char) (t : PPToken) (rest : List PPToken),
      lexAux fuel ws s = some (t :: rest) →
      t.ws = true ∨
        (t.ws = ws ∧ ∃ c cs, s = c :: cs ∧ isBlank c = false ∧ t.text.head? = some c) := by
  induction fuel with
  | zero =>
    intro ws s t rest h
    cases s <;> simp [lexAux] at h
  | succ fuel ih =>
    intro ws s t rest h
    cases s with
    | nil => simp [lexAux] at h
    | cons c cs =>
      cases hb : isBlank c with
      | true =>
        rw [lexAux_blank fuel ws c cs hb] at h
        rcases ih true cs t rest h with h1 | ⟨h1, _⟩
        · exact Or.inl h1
        · exact Or.inl h1
      | false =>
        obtain ⟨tok, rest1, ts1, _, hts, hws, hhead, _⟩ := lexAux_step fuel ws c cs _ hb h
        simp only [List.cons.injEq] at hts
        rw [hts.1]
        exact Or.inr ⟨hws, c, cs, rfl, hb, hhead⟩

/-- What the lexer reads is munched. -/
theorem lexAux_munched (fuel : Nat) :
    ∀ (ws : Bool) (s : List Char) (ts : List PPToken),
      lexAux fuel ws s = some ts → Munched ts = true := by
  induction fuel with
  | zero =>
    intro ws s ts h
    cases s with
    | nil =>
      simp only [lexAux, Option.some.injEq] at h
      rw [← h]
      rfl
    | cons c cs => simp [lexAux] at h
  | succ fuel ih =>
    intro ws s ts h
    cases s with
    | nil =>
      simp only [lexAux, Option.some.injEq] at h
      rw [← h]
      rfl
    | cons c cs =>
      cases hb : isBlank c with
      | true =>
        rw [lexAux_blank fuel ws c cs hb] at h
        exact ih true cs ts h
      | false =>
        obtain ⟨tok, rest1, ts1, h1, hts, _, hhead, hsep⟩ := lexAux_step fuel ws c cs _ hb h
        have hne : tok.text.isEmpty = false := by
          cases htx : tok.text with
          | nil => rw [htx] at hhead; simp at hhead
          | cons a l => rfl
        have hm1 := ih false rest1 ts1 h1
        rw [hts]
        cases ts1 with
        | nil => simp [Munched, hne]
        | cons u rest2 =>
          have htouch : touching tok u = false := by
            rcases lexAux_head fuel false rest1 u rest2 h1 with hu | ⟨_, d, r, hr, _, hd⟩
            · simp [touching, hu]
            · cases hl : (tok.text.getLast?.map isIdentChar == some true) with
              | false => simp [touching, hl]
              | true =>
                have := hsep hl d r hr
                simp [touching, hd, this]
          simp [Munched, hne, htouch, hm1]

theorem lexLine_munched (s : List Char) (ts : List PPToken) (h : lexLine s = some ts) :
    Munched ts = true :=
  lexAux_munched s.length false s ts h

theorem Munched_tail (t : PPToken) (ts : List PPToken) (h : Munched (t :: ts) = true) :
    Munched ts = true := by
  cases ts with
  | nil => rfl
  | cons u rest =>
    simp only [Munched, Bool.and_eq_true] at h
    exact h.2

theorem Munched_clearHeadWs (ts : List PPToken) (h : Munched ts = true) :
    Munched (clearHeadWs ts) = true := by
  cases ts with
  | nil => rfl
  | cons t ts =>
    cases ts with
    | nil => simpa [clearHeadWs, Munched] using h
    | cons u rest => simpa [clearHeadWs, Munched, touching] using h

/-! ## What the reader records is munched -/

theorem parseParamList_munched (acc : List Name) (toks : List PPToken) :
    ∀ ps body, parseParamList acc toks = .ok (ps, body) → Munched toks = true →
      Munched body = true := by
  induction acc, toks using parseParamList.induct with
  | case1 acc p sep rest hp =>
    intro ps body h
    rw [parseParamList, if_pos hp] at h
    exact Outcome.noConfusion h
  | case2 acc p sep rest hp hbad =>
    intro ps body h
    rw [parseParamList, if_neg hp, if_pos hbad] at h
    exact Outcome.noConfusion h
  | case3 acc p sep rest hp hbad hclose =>
    intro ps body h hm
    rw [parseParamList, if_neg hp, if_neg hbad, if_pos hclose] at h
    simp only [Outcome.ok.injEq, Prod.mk.injEq] at h
    rw [← h.2]
    exact Munched_tail _ _ (Munched_tail _ _ hm)
  | case4 acc p sep rest hp hbad hclose hcomma ih =>
    intro ps body h hm
    rw [parseParamList, if_neg hp, if_neg hbad, if_neg hclose, if_pos hcomma] at h
    exact ih ps body h (Munched_tail _ _ (Munched_tail _ _ hm))
  | case5 acc p sep rest hp hbad hclose hcomma =>
    intro ps body h
    rw [parseParamList, if_neg hp, if_neg hbad, if_neg hclose, if_neg hcomma] at h
    exact Outcome.noConfusion h
  | case6 acc toks hne =>
    intro ps body h
    unfold parseParamList at h
    split at h
    · exact absurd rfl (hne _ _ _)
    · exact Outcome.noConfusion h

theorem parseDefine_munched (toks : List PPToken) (n : Name) (m : Macro)
    (hm : Munched toks = true) (h : parseDefine toks = .ok (n, m)) :
    Munched m.body = true := by
  unfold parseDefine at h
  split at h
  · exact Outcome.noConfusion h
  · rename_i nm rest
    split at h
    · exact Outcome.noConfusion h
    · split at h
      · simp only [Outcome.ok.injEq, Prod.mk.injEq] at h
        rw [← h.2]
        rfl
      · rename_i lp rest1
        split at h
        · split at h
          · exact Outcome.noConfusion h
          · rename_i ps body hps
            split at h
            · simp only [Outcome.ok.injEq, Prod.mk.injEq] at h
              rw [← h.2]
              apply Munched_clearHeadWs
              have hm1 : Munched rest1 = true := Munched_tail _ _ (Munched_tail _ _ hm)
              unfold parseParams at hps
              split at hps
              · exact Outcome.noConfusion hps
              · rename_i t rest2
                split at hps
                · simp only [Outcome.ok.injEq, Prod.mk.injEq] at hps
                  rw [← hps.2]
                  exact Munched_tail _ _ hm1
                · exact parseParamList_munched [] _ ps body hps hm1
            · exact Outcome.noConfusion h
        · split at h
          · simp only [Outcome.ok.injEq, Prod.mk.injEq] at h
            rw [← h.2]
            exact Munched_clearHeadWs _ (Munched_tail _ _ hm)
          · exact Outcome.noConfusion h

theorem mem_remove (defs : MacroTable) (name : Name) (p : Name × Macro)
    (h : p ∈ remove defs name) : p ∈ defs := by
  induction defs with
  | nil => simp [remove] at h
  | cons a defs ih =>
    obtain ⟨n, m⟩ := a
    simp only [remove] at h
    split at h
    · exact List.mem_cons_of_mem _ (ih h)
    · rcases List.mem_cons.mp h with rfl | h
      · exact List.mem_cons_self _ _
      · exact List.mem_cons_of_mem _ (ih h)

theorem directive_munched (st st1 : PPState) (args : List PPToken)
    (hst : allMunched st.macros) (hargs : Munched args = true)
    (h : directive st args = .ok st1) : allMunched st1.macros := by
  unfold directive at h
  split at h
  · simp only [Outcome.ok.injEq] at h
    rw [← h]
    exact hst
  · rename_i d rest
    repeat' split at h
    all_goals first
      | exact Outcome.noConfusion h
      | (simp only [Outcome.ok.injEq] at h
         rw [← h]
         first
           | exact hst
           | (intro p hp
              first
                | exact hst p (mem_remove _ _ p hp)
                | (rcases List.mem_append.mp hp with hp | hp
                   · exact hst p hp
                   · rw [List.mem_singleton.mp hp]
                     exact parseDefine_munched rest _ _ (Munched_tail _ _ hargs)
                       (by assumption))))

theorem processLine_munched (fuel : Nat) (st st1 : PPState) (n : Nat)
    (toks out : List PPToken) (hst : allMunched st.macros) (htoks : Munched toks = true)
    (h : processLine fuel st n toks = .ok (st1, out)) : allMunched st1.macros := by
  unfold processLine at h
  split at h
  · simp only [Outcome.ok.injEq, Prod.mk.injEq] at h
    rw [← h.1]
    exact hst
  · rename_i hd rest
    split at h
    · split at h
      · rename_i st2 hdir
        simp only [Outcome.ok.injEq, Prod.mk.injEq] at h
        rw [← h.1]
        exact directive_munched st st2 rest hst (Munched_tail _ _ htoks) hdir
      · exact Outcome.noConfusion h
    · split at h
      · split at h
        · simp only [Outcome.ok.injEq, Prod.mk.injEq] at h
          rw [← h.1]
          exact hst
        · exact Outcome.noConfusion h
      · simp only [Outcome.ok.injEq, Prod.mk.injEq] at h
        rw [← h.1]
        exact hst

theorem runLines_munched (fuel : Nat) (lines : List (Nat × List PPToken)) :
    ∀ (st st1 : PPState) (outs : List (List PPToken)),
      allMunched st.macros → (∀ l ∈ lines, Munched l.2 = true) →
      runLines fuel st lines = .ok (st1, outs) → allMunched st1.macros := by
  induction lines with
  | nil =>
    intro st st1 outs hst _ h
    simp only [runLines, Outcome.ok.injEq, Prod.mk.injEq] at h
    rw [← h.1]
    exact hst
  | cons l lines ih =>
    intro st st1 outs hst hl h
    obtain ⟨n, toks⟩ := l
    simp only [runLines] at h
    split at h
    · exact Outcome.noConfusion h
    · rename_i st2 out hp
      split at h
      · exact Outcome.noConfusion h
      · rename_i st3 outs1 hr
        simp only [Outcome.ok.injEq, Prod.mk.injEq] at h
        rw [← h.1]
        exact ih st2 st3 outs1
          (processLine_munched fuel st st2 n toks out hst (hl (n, toks) (List.mem_cons_self _ _))
            hp)
          (fun l hl1 => hl l (List.mem_cons_of_mem _ hl1)) hr

theorem mem_numberLines {α : Type} (lines : List α) :
    ∀ (k : Nat) (p : Nat × α), p ∈ numberLines k lines → p.2 ∈ lines := by
  induction lines with
  | nil => intro k p h; simp [numberLines] at h
  | cons a lines ih =>
    intro k p h
    simp only [numberLines, List.mem_cons] at h
    rcases h with rfl | h
    · exact List.mem_cons_self _ _
    · exact List.mem_cons_of_mem _ (ih (k + 1) p h)

theorem mapM_lexLine_munched (srcs : List (List Char)) :
    ∀ lines, srcs.mapM lexLine = some lines → ∀ l ∈ lines, Munched l = true := by
  induction srcs with
  | nil =>
    intro lines h l hl
    simp only [List.mapM_nil, Option.pure_def, Option.some.injEq] at h
    rw [← h] at hl
    simp at hl
  | cons s srcs ih =>
    intro lines h l hl
    simp only [List.mapM_cons, Option.pure_def, Option.bind_eq_bind, Option.bind_eq_some] at h
    obtain ⟨ts, hts, rest, hrest, hlines⟩ := h
    simp only [Option.some.injEq] at hlines
    rw [← hlines] at hl
    rcases List.mem_cons.mp hl with rfl | hl
    · exact lexLine_munched s _ hts
    · exact ih rest hrest l hl

/-- Every replacement list that reading a text records is munched. -/
theorem readText_munched (fuel : Nat) (macros defs : MacroTable) (src : List Char)
    (outs : List (List PPToken)) (h0 : allMunched macros)
    (h : readText fuel macros src = .ok (defs, outs)) : allMunched defs := by
  unfold readText at h
  split at h
  · exact Outcome.noConfusion h
  · rename_i lines hlex
    split at h
    · exact Outcome.noConfusion h
    · rename_i st outs1 hrun
      split at h
      · simp only [Outcome.ok.injEq, Prod.mk.injEq] at h
        rw [← h.1]
        exact runLines_munched fuel _ ⟨macros, []⟩ st outs1 h0
          (fun l hl => mapM_lexLine_munched _ lines hlex l.2 (mem_numberLines lines 1 l hl)) hrun
      · exact Outcome.noConfusion h

theorem identChars_of_isIdentifier (s : List Char) (h : isIdentifier s = true) :
    ∀ d ∈ s, isIdentChar d = true := by
  cases s with
  | nil => simp [isIdentifier] at h
  | cons c cs =>
    simp only [isIdentifier, Bool.and_eq_true] at h
    intro d hd
    rcases List.mem_cons.mp hd with rfl | hd
    · simp [isIdentChar, h.1]
    · exact List.all_eq_true.mp h.2 d hd

/-- A munched token sequence whose source text is an identifier holds that
identifier as a token. -/
theorem mem_of_sourceText_eq_identifier (T : List PPToken) (F : Name)
    (hF : isIdentifier F = true) (hm : Munched T = true) (hsrc : sourceText T = F) :
    ∃ t ∈ T, t.text = F := by
  have hall := identChars_of_isIdentifier F hF
  cases T with
  | nil =>
    simp only [sourceText] at hsrc
    rw [← hsrc] at hF
    simp [isIdentifier] at hF
  | cons t T =>
    cases T with
    | nil =>
      refine ⟨t, List.mem_cons_self _ _, ?_⟩
      simpa [sourceText, sourceRest] using hsrc
    | cons u rest =>
      exfalso
      simp only [Munched, Bool.and_eq_true, Bool.not_eq_true', List.isEmpty_eq_false] at hm
      obtain ⟨⟨hne, htouch⟩, hm1⟩ := hm
      have hune : u.text ≠ [] := by
        cases rest with
        | nil => simpa [Munched] using hm1
        | cons v rest =>
          simp only [Munched, Bool.and_eq_true, Bool.not_eq_true', List.isEmpty_eq_false] at hm1
          exact hm1.1.1
      simp only [sourceText, sourceRest] at hsrc
      have hws : u.ws = false := by
        cases hw : u.ws with
        | false => rfl
        | true =>
          rw [hw] at hsrc
          have : isIdentChar ' ' = true := hall ' ' (by rw [← hsrc]; simp)
          exact absurd this (by decide)
      rw [hws] at hsrc
      obtain ⟨a, ha⟩ := List.getLast?_isSome.mpr hne |> Option.isSome_iff_exists.mp
      obtain ⟨b, tl, hb⟩ := List.exists_cons_of_ne_nil hune
      have ha1 : isIdentChar a = true :=
        hall a (by rw [← hsrc]; exact List.mem_append_left _ (List.mem_of_getLast?_eq_some ha))
      have hb1 : isIdentChar b = true :=
        hall b (by rw [← hsrc, hb]; simp)
      simp [touching, hws, ha, ha1, hb, hb1] at htouch

/-! ## Lemmas on replacement -/

theorem collectArgs_isArg (x : List HToken) :
    ∀ (d : Nat) (cur : List HToken) (done : List (List HToken)) (cl : HToken)
      (rest : List HToken),
      isArg d (x.map fun h => h.tok) = true → cl.tok.text = ")".data →
      collectArgs d cur done (x ++ cl :: rest)
        = some (((x.reverse ++ cur).reverse :: done).reverse, cl, rest) := by
  induction x with
  | nil =>
    intro d cur done cl rest h hcl
    cases d with
    | zero => simp [collectArgs, hcl]
    | succ d => simp [isArg] at h
  | cons t x ih =>
    intro d cur done cl rest h hcl
    simp only [List.map_cons, isArg] at h
    simp only [List.cons_append, collectArgs]
    by_cases h1 : t.tok.text = ")".data
    · simp only [h1, if_true] at h ⊢
      cases d with
      | zero => simp at h
      | succ d =>
        simp only at h ⊢
        exact (ih d (t :: cur) done cl rest h hcl).trans (by simp)
    · simp only [h1, if_false] at h ⊢
      by_cases h2 : t.tok.text = "(".data
      · simp only [h2, if_true] at h ⊢
        exact (ih (d + 1) (t :: cur) done cl rest h hcl).trans (by simp)
      · simp only [h2, if_false] at h ⊢
        by_cases h3 : t.tok.text = ",".data ∧ d = 0
        · simp [h3] at h
        · simp only [h3, if_false] at h ⊢
          exact (ih d (t :: cur) done cl rest h hcl).trans (by simp)

/-- Tokens that name no definition pass rescanning unchanged. -/
theorem expand_inert (env : Env) (ts : List HToken) :
    ∀ fuel, ts.length < fuel →
      (∀ t ∈ ts, isIdentifier t.tok.text = true → env.lookup t.tok.text = none) →
      expand env fuel ts = .ok ts := by
  induction ts with
  | nil =>
    intro fuel hf _
    cases fuel with
    | zero => simp at hf
    | succ n => simp [expand]
  | cons t ts ih =>
    intro fuel hf h
    cases fuel with
    | zero => simp at hf
    | succ n =>
      have hts : expand env n ts = .ok ts :=
        ih n (by simpa using hf) (fun u hu => h u (List.mem_cons_of_mem _ hu))
      by_cases hid : isIdentifier t.tok.text = true
      · have hl := h t (List.mem_cons_self _ _) hid
        simp [expand, hl, hts, Outcome.cons]
      · simp [expand, hid, hts, Outcome.cons]

/-- Without parameters and without `##` a replacement list is copied. -/
theorem subst_plain (ex : List HToken → Outcome (List HToken)) (body : List PPToken) :
    ∀ out, (∀ t ∈ body, isHashHash t = false) →
      subst ex [] [] body out = .ok (out.reverse ++ body.map lift) := by
  induction body with
  | nil => intro out _; simp [subst]
  | cons t body ih =>
    intro out h
    cases body with
    | nil => simp [subst, argOf]
    | cons u rest =>
      have ht : isHashHash t = false := h t (List.mem_cons_self _ _)
      have hu : isHashHash u = false := h u (by simp)
      have := ih (lift t :: out) (fun v hv => h v (List.mem_cons_of_mem _ hv))
      have hop : operandOf [] [] t u = none := by simp [operandOf, argOf]
      cases rest with
      | nil => simp [subst, hop, argOf, ht, hu] at this ⊢
      | cons v rest => simp [subst, hop, argOf, ht, hu] at this ⊢; simp [this]

@[simp] theorem map_tok_addHide (hs : List Name) (x : List HToken) :
    (addHide hs x).map (fun h => h.tok) = x.map fun h => h.tok := by
  simp [addHide, Function.comp_def]

theorem map_tok_lift (x : List PPToken) : (x.map lift).map (fun h => h.tok) = x := by
  simp [lift, Function.comp_def]

theorem isArg_setHeadWs (w : Bool) (d : Nat) (x : List HToken) :
    isArg d ((setHeadWs w x).map fun h => h.tok) = isArg d (x.map fun h => h.tok) := by
  cases x with
  | nil => rfl
  | cons t x => simp [setHeadWs, isArg]

theorem spell_setHeadWs (w : Bool) (x : List HToken) :
    spell ((setHeadWs w x).map fun h => h.tok) = spell (x.map fun h => h.tok) := by
  cases x with
  | nil => rfl
  | cons t x => simp [setHeadWs, spell, spellToken]

theorem stringize_setHeadWs (w v : Bool) (hs : List Name) (y : List HToken) :
    stringize w ((addHide hs (setHeadWs v y)).map fun h => h.tok)
      = stringize w (y.map fun h => h.tok) := by
  simp [stringize, quoteSpelling, spell_setHeadWs]

theorem stringize_eq_ok (w : Bool) (x : List PPToken) (s : PPToken)
    (h : stringize w x = .ok s) : s = ⟨quoteSpelling x, w⟩ := by
  unfold stringize at h
  split at h
  · exact (Outcome.ok.inj h).symm
  · exact Outcome.noConfusion h

theorem text_of_mem_setHeadWs (w : Bool) (hs : List Name) (T : List PPToken) (t : HToken)
    (h : t ∈ setHeadWs w (addHide hs (T.map lift))) : ∃ u ∈ T, t.tok.text = u.text := by
  cases T with
  | nil => simp [setHeadWs, addHide] at h
  | cons a T =>
    simp only [List.map_cons, addHide, setHeadWs, List.mem_cons] at h
    rcases h with rfl | h
    · exact ⟨a, List.mem_cons_self _ _, rfl⟩
    · obtain ⟨v, hv, rfl⟩ := List.mem_map.mp h
      obtain ⟨u, hu, rfl⟩ := List.mem_map.mp hv
      exact ⟨u, List.mem_cons_of_mem _ hu, rfl⟩

/-- An object-like name at the end of the input whose replacement list holds
neither `##` nor a defined name is replaced by that list. -/
theorem expand_object (env : Env) (n : Nat) (F : Name) (w : Bool) (T : List PPToken)
    (hF : isIdentifier F = true) (hdef : env.lookup F = some ⟨none, T⟩)
    (hpaste : ∀ t ∈ T, isHashHash t = false)
    (hnames : ∀ t ∈ T, isIdentifier t.text = true → env.lookup t.text = none)
    (hlen : T.length < n) :
    expand env (n + 1) [⟨⟨F, w⟩, []⟩] = .ok (setHeadWs w (addHide [F] (T.map lift))) := by
  have hlen1 : (setHeadWs w (addHide [F] (T.map lift))).length < n := by
    cases T with
    | nil => simpa [setHeadWs, addHide] using hlen
    | cons a T => simpa [setHeadWs, addHide] using hlen
  have hin := expand_inert env (setHeadWs w (addHide [F] (T.map lift))) n hlen1 (by
    intro t ht hid
    obtain ⟨u, hu, hut⟩ := text_of_mem_setHeadWs w [F] T t ht
    rw [hut] at hid ⊢
    exact hnames u hu hid)
  simp [expand, hF, hdef, subst_plain Outcome.ok T [] hpaste, hin]

/-- The invocation `make_Str(x)` at the end of the input, given what `#` makes
of `x`. -/
theorem expand_make_Str (env : Env) (n : Nat) (w w1 w2 : Bool) (hs h1 h2 : List Name)
    (x : List HToken) (s : PPToken)
    (hdef : env.lookup "make_Str".data = some make_Str)
    (hhide : hs.contains "make_Str".data = false)
    (hx : isArg 0 (x.map fun h => h.tok) = true)
    (hstr : stringize false (x.map fun h => h.tok) = .ok s) :
    expand env (n + 3)
        (⟨⟨"make_Str".data, w⟩, hs⟩ :: ⟨⟨"(".data, w1⟩, h1⟩ :: (x ++ [⟨⟨")".data, w2⟩, h2⟩]))
      = .ok [⟨⟨s.text, w⟩, "make_Str".data :: interHide hs h2⟩] := by
  have hid : isIdentifier "make_Str".data = true := by decide
  have hc := collectArgs_isArg x 0 [] [] ⟨⟨")".data, w2⟩, h2⟩ [] hx rfl
  have hs1 := stringize_eq_ok false _ s hstr
  have hq : isIdentifier s.text = false := by
    rw [hs1]
    exact isIdentifier_dquote _
  simp only [expand, hid, hhide, hdef, make_Str, hc]
  simp [fitArgs, subst, operandOf, isHash, argOf, addHide, setHeadWs, Outcome.cons, expand,
    hstr, hq]

/-- The invocation `make_String(x)` at the end of the input, given what the
argument `x` is replaced by and what `#` makes of that. -/
theorem expand_make_String (env : Env) (n : Nat) (w w1 w2 : Bool) (x y : List HToken)
    (s : PPToken)
    (hS : env.lookup "make_String".data = some make_String)
    (hs : env.lookup "make_Str".data = some make_Str)
    (hx : isArg 0 (x.map fun h => h.tok) = true)
    (hxy : expand env (n + 3) x = .ok y)
    (hy : isArg 0 (y.map fun h => h.tok) = true)
    (hstr : stringize false (y.map fun h => h.tok) = .ok s) :
    expand env (n + 4)
        (⟨⟨"make_String".data, w⟩, []⟩ :: ⟨⟨"(".data, w1⟩, []⟩ :: (x ++ [⟨⟨")".data, w2⟩, []⟩]))
      = .ok [⟨⟨s.text, w⟩, ["make_Str".data, "make_String".data]⟩] := by
  have hid : isIdentifier "make_String".data = true := by decide
  have hc := collectArgs_isArg x 0 [] [] ⟨⟨")".data, w2⟩, []⟩ [] hx rfl
  have hstep := expand_make_Str env n w false false ["make_String".data] ["make_String".data]
    ["make_String".data] (addHide ["make_String".data] (setHeadWs false y)) s hs (by decide)
    (by simpa [isArg_setHeadWs] using hy) (by rw [stringize_setHeadWs]; exact hstr)
  simp only [expand, hid, hS, make_String, hc]
  simp [fitArgs, subst, operandOf, isHash, isHashHash, argOf, hxy, lift, interHide]
  simp [addHide, setHeadWs] at hstep ⊢
  simpa [interHide] using hstep

theorem invoke_lift (name : String) (x : List PPToken) :
    (invoke name x).map lift
      = ⟨⟨name.data, false⟩, []⟩ :: ⟨⟨"(".data, false⟩, []⟩ ::
          (x.map lift ++ [⟨⟨")".data, false⟩, []⟩]) := by
  simp [invoke, tk, lift]

/-- Reading `version.h` into a unit without definitions leaves the include
guard and the three definitions, and produces no text. -/
theorem version_h_defines :
    readText 0 [] version_h = .ok (headerDefs, List.replicate 29 []) := by
  decide!

theorem expandLine_make_Str (env : Env) (n : Nat) (x : List PPToken) (s : PPToken)
    (hs : env.lookup "make_Str".data = some make_Str) (hx : isArg 0 x = true)
    (hstr : stringize false x = .ok s) :
    expandLine env (n + 3) (invoke "make_Str" x) = .ok [s] := by
  have h := expand_make_Str env n false false false [] [] [] (x.map lift) s hs (by decide)
    (by rw [map_tok_lift]; exact hx) (by rw [map_tok_lift]; exact hstr)
  have hs1 := stringize_eq_ok false x s hstr
  simp only [expandLine, invoke_lift, h, List.map_cons, List.map_nil]
  rw [hs1]

theorem expandLine_make_String (env : Env) (n : Nat) (x : List PPToken) (y : List HToken)
    (s : PPToken)
    (hS : env.lookup "make_String".data = some make_String)
    (hs : env.lookup "make_Str".data = some make_Str)
    (hx : isArg 0 x = true)
    (hxy : expand env (n + 3) (x.map lift) = .ok y)
    (hy : isArg 0 (y.map fun h => h.tok) = true)
    (hstr : stringize false (y.map fun h => h.tok) = .ok s) :
    expandLine env (n + 4) (invoke "make_String" x) = .ok [s] := by
  have h := expand_make_String env n false false false (x.map lift) y s hS hs
    (by rw [map_tok_lift]; exact hx) hxy hy hstr
  have hs1 := stringize_eq_ok false _ s hstr
  simp only [expandLine, invoke_lift, h, List.map_cons, List.map_nil]
  rw [hs1]

/-- Under any definitions that hold the header's three and define neither
`Alpha` nor `d33dbbe2`, `make_String(GIT_VERSION)` gives `"Alpha-d33dbbe2"`. -/
theorem expandLine_versionUse (env : Env) (k : Nat)
    (hS : env.lookup "make_String".data = some make_String)
    (hs : env.lookup "make_Str".data = some make_Str)
    (hG : env.lookup "GIT_VERSION".data = some GIT_VERSION)
    (hA : env.lookup "Alpha".data = none)
    (hd : env.lookup "d33dbbe2".data = none) :
    expandLine env (k + 6) versionUse = .ok [tk "\"Alpha-d33dbbe2\""] := by
  have hobj := expand_object env (k + 4) "GIT_VERSION".data false GIT_VERSION.body (by decide)
    hG (by decide) (by
      intro t ht _
      simp only [GIT_VERSION, List.mem_cons, List.mem_singleton, List.not_mem_nil,
        or_false] at ht
      rcases ht with rfl | rfl | rfl
      · exact hA
      · exact absurd ‹isIdentifier _ = true› (by decide)
      · exact hd) (by simp [GIT_VERSION])
  exact expandLine_make_String env (k + 2) [tk "GIT_VERSION"]
    (setHeadWs false (addHide ["GIT_VERSION".data] (GIT_VERSION.body.map lift)))
    (tk "\"Alpha-d33dbbe2\"") hS hs (by decide) hobj (by decide) (by decide!)

theorem isArg_identifier (F : Name) (w : Bool) (hF : isIdentifier F = true) :
    isArg 0 [⟨F, w⟩] = true := by
  have h1 : F ≠ ")".data := by rintro rfl; exact absurd hF (by decide)
  have h2 : F ≠ "(".data := by rintro rfl; exact absurd hF (by decide)
  have h3 : F ≠ ",".data := by rintro rfl; exact absurd hF (by decide)
  simp [isArg, h1, h2, h3]

theorem noStrayBackslash_identifier (F : Name) (w : Bool) (hF : isIdentifier F = true) :
    noStrayBackslash [⟨F, w⟩] = true := by
  have hall := identChars_of_isIdentifier F hF
  have hb : backslash ∉ F := fun hm => absurd (hall _ hm) (by decide)
  simp [noStrayBackslash, hb]

theorem stringize_identifier (F : Name) (w v : Bool) (hF : isIdentifier F = true) :
    stringize v [⟨F, w⟩] = .ok ⟨dquote :: (F ++ [dquote]), v⟩ := by
  rw [stringize_ok v _ (noStrayBackslash_identifier F w hF)]
  simp [quoteSpelling, spell, spellRest, spellToken, isQuoted_of_isIdentifier F hF]

theorem stringValue_identifier_literal (F : Name) (w : Bool) (hF : isIdentifier F = true) :
    stringValue ⟨dquote :: (F ++ [dquote]), w⟩ = some F := by
  have h := stringValue_quoteSpelling [⟨F, false⟩] w (noStrayBackslash_identifier F false hF)
  simpa [quoteSpelling, spell, spellRest, spellToken, isQuoted_of_isIdentifier F hF,
    sourceText, sourceRest] using h

/-- The preprocessing side of a constant version string: at every line, for
every fuel from 6 on, `make_String(GIT_VERSION)` is replaced by exactly one
token; that token is a string literal with value `Alpha-d33dbbe2`, and nothing
in it is left to replace: under all definitions whatever, rescanning it gives
the token back.  What a compiler and a running program make of a string
literal lies beyond translation phase 4 and is not modelled. -/
theorem make_String_GIT_VERSION_one_literal :
    ∀ line k, ∃ t,
      expandLine ⟨headerDefs, line⟩ (k + 6) versionUse = .ok [t] ∧
        isStringLiteral t = true ∧
        stringValue t = some "Alpha-d33dbbe2".data ∧
        ∀ (env : Env) (fuel : Nat), expandLine env (fuel + 2) [t] = .ok [t] := by
  intro line k
  refine ⟨tk "\"Alpha-d33dbbe2\"", rfl, by decide!, by decide!, ?_⟩
  intro env fuel
  have hq : isIdentifier (tk "\"Alpha-d33dbbe2\"").text = false := by decide
  simp [expandLine, expand, lift, hq, Outcome.cons]

/-! ## The claims -/

/-- C1: with exactly the three definitions of `version.h` in force (the header
read by the model leaves these and its include guard), at every line and for
every fuel from 6 on, `make_String(GIT_VERSION)` is replaced by the one string
literal `"Alpha-d33dbbe2"`, which is the replacement list of `GIT_VERSION` as
the `#` operator spells it; for no fuel is the result `"GIT_VERSION"`. -/
theorem make_String_GIT_VERSION_expands :
    readText 0 [] version_h
        = .ok (("VERSION_H_IN".data, VERSION_H_IN) :: versionDefs, List.replicate 29 []) ∧
      lexLine "make_String(GIT_VERSION)".data = some versionUse ∧
      (∀ line k, expandLine ⟨versionDefs, line⟩ (k + 6) versionUse
          = .ok [tk "\"Alpha-d33dbbe2\""]) ∧
      stringize false GIT_VERSION.body = .ok (tk "\"Alpha-d33dbbe2\"") ∧
      (∀ line fuel, expandLine ⟨versionDefs, line⟩ fuel versionUse
          ≠ .ok [tk "\"GIT_VERSION\""]) := by
  refine ⟨by decide!, by decide!, fun _ _ => rfl, by decide!, ?_⟩
  intro line fuel
  match fuel with
  | 0 | 1 | 2 | 3 | 4 | 5 =>
    intro h
    exact Outcome.noConfusion h
  | k + 6 =>
    intro h
    have h1 : expandLine ⟨versionDefs, line⟩ (k + 6) versionUse
        = .ok [tk "\"Alpha-d33dbbe2\""] := rfl
    rw [h1] at h
    exact absurd h (by decide)

/-- C2 as stated fails, in three ways; each time the replacement list of `FOO`
holds no defined name.  With `#define FOO 1,2` after the header
`make_String(FOO)` is rejected with an argument count error for every fuel
from 6 on and has no result for any fuel.  With `#define FOO 4 ## 2` the
result is `"42"`, whose value is not the spelling `4 ## 2` of the replacement
list.  With `#define FOO \/**/` the replacement list is a lone backslash, its
spelling between quotes is not a string literal, and `make_String(FOO)` has
no result for any fuel. -/
theorem make_String_body_not_spelled :
    (readText 0 headerDefs "#define FOO 1,2".data = .ok (commaDefs, [[]]) ∧
      Env.lookup ⟨commaDefs, 1⟩ "make_Str".data = some make_Str ∧
      Env.lookup ⟨commaDefs, 1⟩ "make_String".data = some make_String ∧
      Env.lookup ⟨commaDefs, 1⟩ "FOO".data = some ⟨none, [tk "1", tk ",", tk "2"]⟩ ∧
      (∀ t ∈ [tk "1", tk ",", tk "2"], Env.lookup ⟨commaDefs, 1⟩ t.text = none) ∧
      (∀ k, expandLine ⟨commaDefs, 1⟩ (k + 6) (invoke "make_String" [tk "FOO"])
        = .fail .argCount) ∧
      ¬ ∃ fuel r, expandLine ⟨commaDefs, 1⟩ fuel (invoke "make_String" [tk "FOO"]) = .ok r) ∧
    (readText 0 headerDefs "#define FOO 4 ## 2".data = .ok (pasteDefs, [[]]) ∧
      Env.lookup ⟨pasteDefs, 1⟩ "make_Str".data = some make_Str ∧
      Env.lookup ⟨pasteDefs, 1⟩ "make_String".data = some make_String ∧
      Env.lookup ⟨pasteDefs, 1⟩ "FOO".data
        = some ⟨none, [tk "4", ⟨"##".data, true⟩, ⟨"2".data, true⟩]⟩ ∧
      (∀ t ∈ [tk "4", ⟨"##".data, true⟩, ⟨"2".data, true⟩],
        Env.lookup ⟨pasteDefs, 1⟩ t.text = none) ∧
      (∀ k, expandLine ⟨pasteDefs, 1⟩ (k + 6) (invoke "make_String" [tk "FOO"])
        = .ok [tk "\"42\""]) ∧
      stringValue (tk "\"42\"") = some "42".data ∧
      sourceText [tk "4", ⟨"##".data, true⟩, ⟨"2".data, true⟩] = "4 ## 2".data ∧
      "42".data ≠ "4 ## 2".data) ∧
    (readText 0 headerDefs "#define FOO \\/**/".data = .ok (slashDefs, [[]]) ∧
      Env.lookup ⟨slashDefs, 1⟩ "make_Str".data = some make_Str ∧
      Env.lookup ⟨slashDefs, 1⟩ "make_String".data = some make_String ∧
      Env.lookup ⟨slashDefs, 1⟩ "FOO".data = some ⟨none, [⟨[backslash], false⟩]⟩ ∧
      Env.lookup ⟨slashDefs, 1⟩ [backslash] = none ∧
      isStringLiteral ⟨quoteSpelling [⟨[backslash], false⟩], false⟩ = false ∧
      (∀ k, expandLine ⟨slashDefs, 1⟩ (k + 6) (invoke "make_String" [tk "FOO"])
        = .fail .badStringize) ∧
      ¬ ∃ fuel r, expandLine ⟨slashDefs, 1⟩ fuel (invoke "make_String" [tk "FOO"]) = .ok r) := by
  refine ⟨⟨by decide!, by decide, by decide, by decide, by decide, fun _ => rfl, ?_⟩,
    ⟨by decide!, by decide, by decide, by decide, by decide, fun _ => rfl, by decide!,
      by decide, by decide⟩,
    ⟨by decide!, by decide, by decide, by decide, by decide, by decide!, fun _ => rfl, ?_⟩⟩
  · rintro ⟨fuel, r, h⟩
    match fuel, h with
    | 0, h | 1, h | 2, h | 3, h | 4, h | 5, h => exact Outcome.noConfusion h
    | k + 6, h =>
      have h1 : expandLine ⟨commaDefs, 1⟩ (k + 6) (invoke "make_String" [tk "FOO"])
          = .fail .argCount := rfl
      rw [h1] at h
      exact Outcome.noConfusion h
  · rintro ⟨fuel, r, h⟩
    match fuel, h with
    | 0, h | 1, h | 2, h | 3, h | 4, h | 5, h => exact Outcome.noConfusion h
    | k + 6, h =>
      have h1 : expandLine ⟨slashDefs, 1⟩ (k + 6) (invoke "make_String" [tk "FOO"])
          = .fail .badStringize := rfl
      rw [h1] at h
      exact Outcome.noConfusion h

/-- C2, amended: under all definitions that hold the header's `make_Str` and
`make_String` and an object-like `F` whose replacement list `T` holds no
defined name and no `##`, is one argument (parentheses balanced, no comma
outside them) and has no backslash outside a string literal or character
constant, `make_String(F)` is replaced, for every fuel from the length of `T`
plus 4 on, by one token; that token is a string literal and its value is the
source text of `T`.  When `T` is moreover munched, as every replacement list
is that the reader records, the value is not the name `F` and the token is
not the literal `"F"`.  In particular with `#define FOO 42` after the header,
`make_String(FOO)` gives `"42"`, with value `42`, not `"FOO"`. -/
theorem make_String_object_like :
    (∀ (env : Env) (F : Name) (T : List PPToken) (w : Bool) (k : Nat),
        env.lookup "make_String".data = some make_String →
        env.lookup "make_Str".data = some make_Str →
        isIdentifier F = true →
        env.lookup F = some ⟨none, T⟩ →
        (∀ t ∈ T, env.lookup t.text = none) →
        (∀ t ∈ T, isHashHash t = false) →
        isArg 0 T = true →
        noStrayBackslash T = true →
        ∃ t, expandLine env (T.length + 4 + k) (invoke "make_String" [⟨F, w⟩]) = .ok [t] ∧
          isStringLiteral t = true ∧
          stringValue t = some (sourceText T) ∧
          (Munched T = true →
            stringValue t ≠ some F ∧ t ≠ ⟨dquote :: (F ++ [dquote]), false⟩)) ∧
      (∀ (fuel : Nat) (macros defs : MacroTable) (src : List Char)
          (outs : List (List PPToken)),
        allMunched macros → readText fuel macros src = .ok (defs, outs) → allMunched defs) ∧
      (readText 0 headerDefs "#define FOO 42".data = .ok (fooDefs, [[]]) ∧
        ∀ line k,
          expandLine ⟨fooDefs, line⟩ (k + 5) (invoke "make_String" [tk "FOO"])
              = .ok [tk "\"42\""] ∧
            isStringLiteral (tk "\"42\"") = true ∧
            stringValue (tk "\"42\"") = some "42".data ∧
            tk "\"42\"" ≠ tk "\"FOO\"") := by
  refine ⟨?_, ?_, ?_⟩
  · intro env F T w k hS hs hF hdef hnames hpaste harg hbs
    have hobj := expand_object env (T.length + k + 2) F w T hF hdef hpaste
      (fun t ht _ => hnames t ht) (by omega)
    have hy : isArg 0 ((setHeadWs w (addHide [F] (T.map lift))).map fun h => h.tok)
        = true := by
      rw [isArg_setHeadWs, map_tok_addHide, map_tok_lift]
      exact harg
    have hstr : stringize false ((setHeadWs w (addHide [F] (T.map lift))).map fun h => h.tok)
        = .ok ⟨quoteSpelling T, false⟩ := by
      have h0 := stringize_ok false T hbs
      simp only [stringize, quoteSpelling, spell_setHeadWs, map_tok_addHide, map_tok_lift]
        at h0 ⊢
      exact h0
    have h := expandLine_make_String env (T.length + k) [⟨F, w⟩]
      (setHeadWs w (addHide [F] (T.map lift))) ⟨quoteSpelling T, false⟩ hS hs
      (isArg_identifier F w hF) (by simpa [lift] using hobj) hy hstr
    have hfuel : T.length + 4 + k = T.length + k + 4 := by omega
    have hval := stringValue_quoteSpelling T false hbs
    refine ⟨⟨quoteSpelling T, false⟩, by rw [hfuel, h],
      isStringLiteral_quoteSpelling T false hbs, hval, ?_⟩
    intro hm
    have hne : sourceText T ≠ F := by
      intro hsrc
      obtain ⟨t, ht, htF⟩ := mem_of_sourceText_eq_identifier T F hF hm hsrc
      have hnone := hnames t ht
      rw [htF, hdef] at hnone
      exact Option.noConfusion hnone
    constructor
    · rw [hval]
      exact fun heq => hne (Option.some.inj heq)
    · intro heq
      have h1 := congrArg stringValue heq
      rw [hval, stringValue_identifier_literal F false hF] at h1
      exact hne (Option.some.inj h1)
  · intro fuel macros defs src outs h0 h
    exact readText_munched fuel macros defs src outs h0 h
  · exact ⟨by decide!, fun _ _ => ⟨rfl, by decide!, by decide!, by decide⟩⟩

/-- The general part of C2 at `FOO` defined as `42` after the header: the
result is a string literal with value `42`, which is not `FOO`. -/
theorem make_String_object_like_witness :
    ∃ t, expandLine ⟨fooDefs, 1⟩ 5 (invoke "make_String" [⟨"FOO".data, false⟩]) = .ok [t] ∧
      isStringLiteral t = true ∧
      stringValue t = some "42".data ∧
      stringValue t ≠ some "FOO".data ∧
      t ≠ ⟨dquote :: ("FOO".data ++ [dquote]), false⟩ :=
  match make_String_object_like.1 ⟨fooDefs, 1⟩ "FOO".data [tk "42"] false 0
    (by decide) (by decide) (by decide) (by decide) (by decide) (by decide) (by decide)
    (by decide) with
  | ⟨t, h1, h2, h3, h4⟩ => ⟨t, h1, h2, h3, (h4 (by decide)).1, (h4 (by decide)).2⟩

/-- C3: the one-level `make_Str` quotes its argument as written.  Under all
definitions that hold the header's `make_Str`, for every identifier `F` defined
as an object-like name with any replacement list `T`, `make_Str(F)` is replaced
by the string literal spelling the name `F`.  In particular
`make_Str(GIT_VERSION)` gives `"GIT_VERSION"`, which is not what
`make_String(GIT_VERSION)` gives. -/
theorem make_Str_quotes_its_argument :
    (∀ (env : Env) (F : Name) (T : List PPToken) (w : Bool) (k : Nat),
        env.lookup "make_Str".data = some make_Str →
        isIdentifier F = true →
        env.lookup F = some ⟨none, T⟩ →
        expandLine env (k + 3) (invoke "make_Str" [⟨F, w⟩])
          = .ok [⟨dquote :: (F ++ [dquote]), false⟩]) ∧
      (∀ line k,
        expandLine ⟨versionDefs, line⟩ (k + 3) (invoke "make_Str" [tk "GIT_VERSION"])
            = .ok [tk "\"GIT_VERSION\""] ∧
          expandLine ⟨versionDefs, line⟩ (k + 6) versionUse = .ok [tk "\"Alpha-d33dbbe2\""] ∧
          expandLine ⟨versionDefs, line⟩ (k + 3) (invoke "make_Str" [tk "GIT_VERSION"])
            ≠ expandLine ⟨versionDefs, line⟩ (k + 6) versionUse) := by
  constructor
  · intro env F T w k hs hF _
    exact expandLine_make_Str env k [⟨F, w⟩] ⟨dquote :: (F ++ [dquote]), false⟩ hs
      (isArg_identifier F w hF) (stringize_identifier F w false hF)
  · intro line k
    have h1 : expandLine ⟨versionDefs, line⟩ (k + 3) (invoke "make_Str" [tk "GIT_VERSION"])
        = .ok [tk "\"GIT_VERSION\""] := rfl
    have h2 : expandLine ⟨versionDefs, line⟩ (k + 6) versionUse
        = .ok [tk "\"Alpha-d33dbbe2\""] := rfl
    refine ⟨h1, h2, ?_⟩
    rw [h1, h2]
    decide

/-- The general part of C3 at `F = GIT_VERSION` under the header's definitions. -/
theorem make_Str_quotes_its_argument_witness :
    expandLine ⟨headerDefs, 1⟩ 3 (invoke "make_Str" [⟨"GIT_VERSION".data, false⟩])
      = .ok [⟨dquote :: ("GIT_VERSION".data ++ [dquote]), false⟩] :=
  make_Str_quotes_its_argument.1 ⟨headerDefs, 1⟩ "GIT_VERSION".data GIT_VERSION.body false 0
    (by decide) (by decide) (by decide)

/-- C4: the version symbol resolves to a non-empty string.  Reading `version.h`
defines `GIT_VERSION` with a replacement list that is not empty, and at every
line, for every fuel from 6 on, `make_String(GIT_VERSION)` gives one string
literal whose value is the fourteen characters `Alpha-d33dbbe2`. -/
theorem GIT_VERSION_string_nonempty :
    (∃ outs, readText 0 [] version_h = .ok (headerDefs, outs)) ∧
      find headerDefs "GIT_VERSION".data = some GIT_VERSION ∧
      GIT_VERSION.body ≠ [] ∧
      (∀ line k, ∃ t s,
        expandLine ⟨headerDefs, line⟩ (k + 6) versionUse = .ok [t] ∧
          stringValue t = some s ∧ s = "Alpha-d33dbbe2".data ∧ 0 < s.length) := by
  refine ⟨⟨_, version_h_defines⟩, by decide, by decide, ?_⟩
  intro line k
  exact ⟨tk "\"Alpha-d33dbbe2\"", "Alpha-d33dbbe2".data, rfl, by decide!, rfl, by decide⟩

/-- C5 as stated fails: the replacement list that reading `version.h` records
for `GIT_VERSION` is the lexer's reading of `Alpha-d33dbbe2`, which is three
preprocessing tokens, so it is not a single one. -/
theorem GIT_VERSION_not_one_token :
    (∃ outs, readText 0 [] version_h = .ok (headerDefs, outs)) ∧
      find headerDefs "GIT_VERSION".data = some GIT_VERSION ∧
      lexLine "Alpha-d33dbbe2".data = some GIT_VERSION.body ∧
      GIT_VERSION.body.length = 3 ∧
      ¬ ∃ t, GIT_VERSION.body = [t] := by
  refine ⟨⟨_, version_h_defines⟩, by decide, by decide!, by decide, ?_⟩
  rintro ⟨t, ht⟩
  have h3 : GIT_VERSION.body.length = 1 := by rw [ht]; rfl
  exact absurd h3 (by decide)

/-- C5, amended: the replacement list of `GIT_VERSION` is the three
preprocessing tokens `Alpha`, `-`, `d33dbbe2` (identifier, punctuator,
identifier) written without white space; none of them is a string literal or
character constant and none holds a quote character. -/
theorem GIT_VERSION_unquoted_tokens :
    (∃ outs, readText 0 [] version_h = .ok (headerDefs, outs)) ∧
      find headerDefs "GIT_VERSION".data = some GIT_VERSION ∧
      GIT_VERSION.params = none ∧
      GIT_VERSION.body = [tk "Alpha", tk "-", tk "d33dbbe2"] ∧
      isIdentifier "Alpha".data = true ∧ "-".data ∈ punctuators ∧
      isIdentifier "d33dbbe2".data = true ∧
      (∀ t ∈ GIT_VERSION.body,
        t.ws = false ∧ isQuoted t.text = false ∧ isStringLiteral t = false ∧
          dquote ∉ t.text ∧ squote ∉ t.text) := by
  refine ⟨⟨_, version_h_defines⟩, by decide, rfl, rfl, by decide, by decide, by decide, ?_⟩
  decide

/-- C8: what `make_String(GIT_VERSION)` gives is not fixed by `version.h` alone.
With `#define Alpha Beta` after the header, every definition of the header
still in force, it gives `"Beta-d33dbbe2"` (fuel from 7 on); under all definitions that hold
the header's three and define neither `Alpha` nor `d33dbbe2` it gives
`"Alpha-d33dbbe2"`, for every fuel from 6 on. -/
theorem make_String_GIT_VERSION_rescanned :
    (readText 0 headerDefs "#define Alpha Beta".data = .ok (betaDefs, [[]]) ∧
      (∀ n m, find headerDefs n = some m → find betaDefs n = some m) ∧
      ∀ line k,
        expandLine ⟨betaDefs, line⟩ (k + 7) versionUse = .ok [tk "\"Beta-d33dbbe2\""] ∧
          tk "\"Beta-d33dbbe2\"" ≠ tk "\"Alpha-d33dbbe2\"") ∧
    (∀ (env : Env) (k : Nat),
      env.lookup "make_String".data = some make_String →
      env.lookup "make_Str".data = some make_Str →
      env.lookup "GIT_VERSION".data = some GIT_VERSION →
      env.lookup "Alpha".data = none →
      env.lookup "d33dbbe2".data = none →
      expandLine env (k + 6) versionUse = .ok [tk "\"Alpha-d33dbbe2\""]) := by
  refine ⟨⟨by decide!, ?_, fun _ _ => ⟨rfl, by decide⟩⟩, ?_⟩
  · intro n m h
    simp only [headerDefs, versionDefs, betaDefs, find, List.cons_append, List.nil_append]
      at h ⊢
    repeat' split at h
    all_goals simp_all
  · intro env k hS hs hG hA hd
    exact expandLine_versionUse env k hS hs hG hA hd

/-- The second part of C8 under the header's own definitions. -/
theorem make_String_GIT_VERSION_rescanned_witness :
    expandLine ⟨headerDefs, 1⟩ 6 versionUse = .ok [tk "\"Alpha-d33dbbe2\""] :=
  make_String_GIT_VERSION_rescanned.2 ⟨headerDefs, 1⟩ 0
    (by decide) (by decide) (by decide) (by decide) (by decide)

/-- C9 as stated fails at the argument that is a lone backslash: the lexer
reads `make_String(\)` and `make_Str(\)` as invocations with that argument, it
is one argument and no defined name, but its spelling between quotes is not a
string literal, and under the header's definitions neither invocation has a
result for any fuel. -/
theorem make_String_make_Str_lone_backslash :
    lexLine "make_String(\\)".data = some (invoke "make_String" [⟨[backslash], false⟩]) ∧
      lexLine "make_Str(\\)".data = some (invoke "make_Str" [⟨[backslash], false⟩]) ∧
      Env.lookup ⟨headerDefs, 1⟩ "make_String".data = some make_String ∧
      Env.lookup ⟨headerDefs, 1⟩ "make_Str".data = some make_Str ∧
      Env.lookup ⟨headerDefs, 1⟩ [backslash] = none ∧
      isArg 0 [⟨[backslash], false⟩] = true ∧
      isStringLiteral ⟨quoteSpelling [⟨[backslash], false⟩], false⟩ = false ∧
      (¬ ∃ fuel r,
        expandLine ⟨headerDefs, 1⟩ fuel (invoke "make_String" [⟨[backslash], false⟩])
          = .ok r) ∧
      ¬ ∃ fuel r,
        expandLine ⟨headerDefs, 1⟩ fuel (invoke "make_Str" [⟨[backslash], false⟩]) = .ok r := by
  refine ⟨by decide!, by decide!, by decide, by decide, by decide, by decide, by decide!,
    ?_, ?_⟩
  · rintro ⟨fuel, r, h⟩
    match fuel, h with
    | 0, h | 1, h | 2, h => exact Outcome.noConfusion h
    | k + 3, h =>
      have h1 : expandLine ⟨headerDefs, 1⟩ (k + 3)
          (invoke "make_String" [⟨[backslash], false⟩]) = .fail .badStringize := rfl
      rw [h1] at h
      exact Outcome.noConfusion h
  · rintro ⟨fuel, r, h⟩
    match fuel, h with
    | 0, h | 1, h => exact Outcome.noConfusion h
    | k + 2, h =>
      have h1 : expandLine ⟨headerDefs, 1⟩ (k + 2)
          (invoke "make_Str" [⟨[backslash], false⟩]) = .fail .badStringize := rfl
      rw [h1] at h
      exact Outcome.noConfusion h

/-- C9, amended: on an argument that needs no replacement and has no backslash
outside a string literal or character constant the two levels agree.  Under
all definitions that hold the header's `make_Str` and `make_String`, for every
such token sequence `x` that is one argument and in which no token is a
defined name, `make_String(x)` and `make_Str(x)` are both replaced, for every
fuel from the length of `x` plus 4 on, by the same single token; that token is
a string literal and its value is the source text of `x`. -/
theorem make_String_agrees_with_make_Str (env : Env) (x : List PPToken) (k : Nat)
    (hS : env.lookup "make_String".data = some make_String)
    (hs : env.lookup "make_Str".data = some make_Str)
    (hnames : ∀ t ∈ x, env.lookup t.text = none)
    (harg : isArg 0 x = true)
    (hbs : noStrayBackslash x = true) :
    ∃ t, expandLine env (x.length + 4 + k) (invoke "make_String" x) = .ok [t] ∧
      expandLine env (x.length + 4 + k) (invoke "make_Str" x) = .ok [t] ∧
      isStringLiteral t = true ∧
      stringValue t = some (sourceText x) := by
  have hstr := stringize_ok false x hbs
  refine ⟨⟨quoteSpelling x, false⟩, ?_, ?_, isStringLiteral_quoteSpelling x false hbs,
    stringValue_quoteSpelling x false hbs⟩
  · have hin := expand_inert env (x.map lift) (x.length + k + 3) (by simp; omega) (by
      intro t ht _
      obtain ⟨u, hu, rfl⟩ := List.mem_map.mp ht
      exact hnames u hu)
    have h := expandLine_make_String env (x.length + k) x (x.map lift) ⟨quoteSpelling x, false⟩
      hS hs harg hin (by rw [map_tok_lift]; exact harg) (by rw [map_tok_lift]; exact hstr)
    have hfuel : x.length + 4 + k = x.length + k + 4 := by omega
    rw [hfuel, h]
  · have hfuel : x.length + 4 + k = x.length + 1 + k + 3 := by omega
    rw [hfuel, expandLine_make_Str env (x.length + 1 + k) x ⟨quoteSpelling x, false⟩ hs harg hstr]

/-- C9, amended, at the argument `f("a\n", b) + 1` under the header's
definitions: both levels give the literal whose value is that text. -/
theorem make_String_agrees_with_make_Str_witness :
    lexLine "f(\"a\\n\", b) + 1".data
        = some [tk "f", tk "(", tk "\"a\\n\"", tk ",", ⟨"b".data, true⟩, tk ")",
            ⟨"+".data, true⟩, ⟨"1".data, true⟩] ∧
      ∃ t,
        expandLine ⟨headerDefs, 1⟩ 12
            (invoke "make_String" [tk "f", tk "(", tk "\"a\\n\"", tk ",", ⟨"b".data, true⟩,
              tk ")", ⟨"+".data, true⟩, ⟨"1".data, true⟩])
          = .ok [t] ∧
        expandLine ⟨headerDefs, 1⟩ 12
            (invoke "make_Str" [tk "f", tk "(", tk "\"a\\n\"", tk ",", ⟨"b".data, true⟩,
              tk ")", ⟨"+".data, true⟩, ⟨"1".data, true⟩])
          = .ok [t] ∧
        isStringLiteral t = true ∧
        stringValue t = some "f(\"a\\n\", b) + 1".data :=
  ⟨by decide!,
    make_String_agrees_with_make_Str ⟨headerDefs, 1⟩
      [tk "f", tk "(", tk "\"a\\n\"", tk ",", ⟨"b".data, true⟩, tk ")", ⟨"+".data, true⟩,
        ⟨"1".data, true⟩] 0 (by decide) (by decide) (by decide) (by decide) (by decide)⟩

end YumeBox
